import Mathlib

/-!
Verification of the go-scheduler priority dispatcher.

This file shallowly embeds the queueing core of the package
(`priority.go`, `config.go`, `scheduler.go`) and proves properties of
the embedded definitions.

Embedding conventions:
* `Priority` is a Go `int` of the package, embedded as `Int`;
  the `first`/`last` cursors of a queue are Go `int`s, embedded as `Int`
  (their overflow is irrelevant to every property considered here).
* `uint32` fields (`curops`, `maxops`, `Minimum`) are embedded as `Nat`
  together with explicit `% 2^32` arithmetic at each point where the Go
  code can wrap (`curops++`, `curops--`, `maxops32--`, `uint32(x)`
  conversions).
* Operations (`Operation` interface values) are opaque to the scheduler:
  it only stores and returns them.  They are embedded as identifiers of
  type `Nat`; `nil` interface values appear as `Option`.
* The Go `map[int]Operation` inside a queue is embedded as a function
  `Int → Option Nat`; reading an absent key yields `none` exactly as the
  Go map read yields the zero value.
* `Scheduler.pl` (`map[Priority]*priorityMetadata`) and `Scheduler.opl`
  (`[]*priorityMetadata`) share pointers in Go: both always hold the very
  same objects, keyed by their priority.  The embedding stores the
  objects once, in `pl : Priority → Option priorityMetadata`, and lets
  `opl : List Priority` hold the keys; a write through either Go alias is
  a write to `pl` at that key.
* Threshold callbacks (`MinimumCallback`) are user functions invoked for
  their effects; the embedding records each invocation as an event
  `(priority passed to the callback)` in a `List Priority` result
  component.  Registration of a `nil` callback is not modelled (the Go
  code would fault when invoking it).
* The mutex, the ticker, the `float32` rate (`Config.OPS`), the fallback
  operation and the worker goroutines are real-time/concurrency features
  with no queue-state content; the shutdown ordering of `Stop` versus the
  tick loop, which is about those features, is modelled separately as a
  small labelled transition system at the end of the definitions.
-/

namespace GoSched

/-- Go `int` priority values (`type Priority int`).
The higher the value, the later the scan position. -/
abbrev Priority := Int

/-- Operations are opaque interface values; only identity matters. -/
abbrev Operation := Nat

/-- The three error values of `scheduler.go`. -/
inductive SchedErr where
  | ErrInvalidPriority
  | ErrMaxCapacity
  | ErrPriorityCapacity
deriving DecidableEq, Repr

/-- `uint32` increment with wrap-around. -/
def inc32 (n : Nat) : Nat := (n + 1) % 2 ^ 32

/-- `uint32` decrement with wrap-around. -/
def dec32 (n : Nat) : Nat := (n + (2 ^ 32 - 1)) % 2 ^ 32

/-- Go conversion `uint32(m)` of an `int` (two's-complement truncation). -/
def toUint32 (m : Int) : Nat := (m % (2 ^ 32 : Int)).toNat

/-- `priorityMetadata` of `priority.go`: one bounded FIFO queue.
`hasCallback` embeds `MinimumCallback != nil`. -/
structure priorityMetadata where
  priority : Int
  oplist : Int → Option Nat
  maxops : Nat
  curops : Nat
  first : Int
  last : Int
  Minimum : Nat
  hasCallback : Bool

/-- `getMaxops` of `priority.go`: `maxops32 := uint32(maxops); if maxops32 == 0 { maxops32-- }`. -/
def getMaxops (maxops : Int) : Nat :=
  let maxops32 := toUint32 maxops
  if maxops32 = 0 then dec32 maxops32 else maxops32

/-- `newPriorityMetadata` of `priority.go`. -/
def newPriorityMetadata (p : Int) (maxops : Int) : priorityMetadata :=
  { priority := p
    oplist := fun _ => none
    maxops := getMaxops maxops
    curops := 0
    first := 0
    last := 0
    Minimum := 0
    hasCallback := false }

/-- `AddOperation` of `priority.go`: reject when `curops == maxops`,
otherwise append at index `last` and advance `last`. -/
def AddOperation (p : priorityMetadata) (o : Nat) :
    priorityMetadata × Option SchedErr :=
  if p.curops = p.maxops then
    (p, some SchedErr.ErrPriorityCapacity)
  else
    ({ p with
        curops := inc32 p.curops
        oplist := fun j => if j = p.last then some o else p.oplist j
        last := p.last + 1 }, none)

/-- Result of `GetOperation`: the mutated queue, the returned
`(Operation, bool)` pair, and the threshold-callback invocations. -/
structure GetOpResult where
  pm : priorityMetadata
  op : Option Nat
  ok : Bool
  events : List Int

/-- `GetOperation` of `priority.go`: when nonempty, remove the entry at
`first`, advance `first`, decrement `curops`, and invoke the threshold
callback if the new `curops` equals `Minimum` and a callback is set. -/
def GetOperation (p : priorityMetadata) : GetOpResult :=
  if p.last = p.first then
    { pm := p, op := none, ok := false, events := [] }
  else
    let o := p.oplist p.first
    let p1 : priorityMetadata :=
      { p with
          oplist := fun j => if j = p.first then none else p.oplist j
          first := p.first + 1
          curops := dec32 p.curops }
    { pm := p1
      op := o
      ok := true
      events := if p1.curops = p.Minimum ∧ p.hasCallback = true then [p.priority] else [] }

/-- `Config` of `config.go`.  `OPS` (a `float32` tick rate) and
`Fallback` drive only the real-time loop and are not modelled.
`PriorityAutoInit` and `PriorityDefaultCapacity` are read by `New`
(`c.PriorityAutoInit`, `c.PriorityDefaultCapacity`) but their
declarations are missing from the `Config` literal in `src/config.go`.
Modelled from the spec: "auto-initialization flag for unseen priorities,
default per-level capacity used under auto-initialization" (§6). -/
structure Config where
  Workers : Int := 0
  MaxQueueSize : Int := 0
  ExecutionBufferSize : Int := 0
  PriorityAutoInit : Bool := false
  PriorityDefaultCapacity : Int := 0

/-- `Config.maxops` of `config.go`: maximum representable count when the
configured size is not positive. -/
def Config.maxops (c : Config) : Nat :=
  if c.MaxQueueSize ≤ 0 then 2 ^ 32 - 1 else toUint32 c.MaxQueueSize

/-- `Config.opbuf` of `config.go`. -/
def Config.opbuf (c : Config) : Int :=
  if c.ExecutionBufferSize ≤ 0 then 1 else c.ExecutionBufferSize

/-- The `Scheduler` of `scheduler.go`, restricted to its queue state.
`opqueue` is `none` exactly when the Go field is a nil channel; when
present it records the buffer capacity.  `pause`, `ticker`, `fallback`
and `stop` are real-time/concurrency fields, not part of queue state. -/
structure Scheduler where
  usingWorkers : Bool
  opqueue : Option Int
  pai : Bool
  pdc : Int
  pl : Int → Option priorityMetadata
  opl : List Int
  curops : Nat
  maxops : Nat

/-- `New` of `scheduler.go`, restricted to state construction: the
worker goroutines and the ticker goroutine it spawns are behaviour, not
state. -/
def New (c : Config) : Scheduler :=
  { usingWorkers := decide (0 < c.Workers)
    opqueue := if 0 < c.Workers then some c.opbuf else none
    pai := c.PriorityAutoInit
    pdc := c.PriorityDefaultCapacity
    pl := fun _ => none
    opl := []
    curops := 0
    maxops := c.maxops }

/-- One iteration of the back-to-front reorder loop of `InitPriority`:
`if s.opl[i].priority < s.opl[i-1].priority { s.opl[i] = s.opl[i-1]; s.opl[i-1] = pm }`.
Priorities are the keys, so the comparison of the pointed-to objects is a
comparison of list entries, and the write of `pm` writes its key `p`. -/
def oplBody (p : Int) (l : List Int) (i : Nat) : List Int :=
  if l.getD i 0 < l.getD (i - 1) 0 then
    (l.set i (l.getD (i - 1) 0)).set (i - 1) p
  else l

/-- The reorder loop `for i := len(s.opl) - 1; i > 0; i--` of
`InitPriority`, run from index `i` down to `1`. -/
def oplLoop (p : Int) : List Int → Nat → List Int
  | l, 0 => l
  | l, i + 1 => oplLoop p (oplBody p l (i + 1)) i

/-- `InitPriority` of `scheduler.go`: overwrite `maxops` in place when
the priority exists, otherwise create a queue, append it and restore
ascending order with the reorder loop. -/
def InitPriority (s : Scheduler) (p : Int) (maxops : Int) : Scheduler :=
  match s.pl p with
  | some pr =>
      { s with pl := fun q => if q = p then some { pr with maxops := getMaxops maxops } else s.pl q }
  | none =>
      let pm := newPriorityMetadata p maxops
      let l := s.opl ++ [p]
      { s with
          pl := fun q => if q = p then some pm else s.pl q
          opl := oplLoop p l (l.length - 1) }

/-- `getPriorityMetadata` of `scheduler.go`: look the priority up,
auto-initializing with the default capacity when enabled. -/
def getPriorityMetadata (s : Scheduler) (p : Int) :
    Scheduler × Except SchedErr priorityMetadata :=
  match s.pl p with
  | some pm => (s, Except.ok pm)
  | none =>
      if s.pai = false then (s, Except.error SchedErr.ErrInvalidPriority)
      else
        let s1 := InitPriority s p s.pdc
        match s1.pl p with
        | some pm => (s1, Except.ok pm)
        | none => (s1, Except.error SchedErr.ErrInvalidPriority)
          -- dead branch: `InitPriority` always inserts `p`

/-- `Add` of `scheduler.go`: global capacity check, then queue
resolution, then the per-level enqueue, then `curops++`. -/
def Add (s : Scheduler) (p : Int) (o : Nat) :
    Scheduler × Option SchedErr :=
  if s.maxops ≤ s.curops then
    (s, some SchedErr.ErrMaxCapacity)
  else
    match getPriorityMetadata s p with
    | (s1, Except.error e) => (s1, some e)
    | (s1, Except.ok pm) =>
        match AddOperation pm o with
        | (_, some e) => (s1, some e)
        | (pm1, none) =>
            ({ s1 with
                pl := fun q => if q = p then some pm1 else s1.pl q
                curops := inc32 s1.curops }, none)

/-- `SetMinimumCallback` of `scheduler.go` (with a non-nil callback):
resolve the queue (note: through the auto-initializing
`getPriorityMetadata`), store the threshold and the callback, and invoke
the callback at once when `Minimum >= curops`. -/
def SetMinimumCallback (s : Scheduler) (p : Int) (minimum : Int) :
    Scheduler × Option SchedErr × List Int :=
  match getPriorityMetadata s p with
  | (s1, Except.error e) => (s1, some e, [])
  | (s1, Except.ok pm) =>
      let pm1 : priorityMetadata :=
        { pm with Minimum := toUint32 minimum, hasCallback := true }
      ({ s1 with pl := fun q => if q = p then some pm1 else s1.pl q },
       none,
       if pm1.curops ≤ pm1.Minimum then [pm1.priority] else [])

/-- The scan loop of `getNextOp`: try each queue of `opl` in order,
return the first hit and write the mutated queue and the decremented
global counter back.  A key absent from `pl` cannot arise (in Go the
list holds live pointers); such an entry is skipped. -/
def getNextOpAux : Scheduler → List Int → Scheduler × Option Nat × List Int
  | s, [] => (s, none, [])
  | s, q :: rest =>
      match s.pl q with
      | none => getNextOpAux s rest
      | some pm =>
          let r := GetOperation pm
          if r.ok then
            ({ s with
                pl := fun j => if j = q then some r.pm else s.pl j
                curops := dec32 s.curops }, r.op, r.events)
          else getNextOpAux s rest

/-- `getNextOp` of `scheduler.go`. -/
def getNextOp (s : Scheduler) : Scheduler × Option Nat × List Int :=
  getNextOpAux s s.opl

/-- `Stop` of `scheduler.go`, state part: `close(s.opqueue)` faults on a
nil channel (`none`); the result is `none` exactly when the call
panics. -/
def Stop (s : Scheduler) : Option Scheduler :=
  match s.opqueue with
  | none => none
  | some _ => some s

/-! ### Derived notions used to state the claims -/

/-- The pending operations of a queue, oldest first: the entries of
`oplist` at indices `first, first+1, …, last-1`. -/
def pmOps (pm : priorityMetadata) : List Nat :=
  (List.range (pm.last - pm.first).toNat).filterMap
    (fun k : Nat => pm.oplist (pm.first + (k : Int)))

/-- The pending operations of the queue registered at `q`, if any. -/
def pmOpsAt (s : Scheduler) (q : Int) : List Nat :=
  match s.pl q with
  | some pm => pmOps pm
  | none => []

/-- Concatenation of per-key lists, in key order. -/
def catMap (f : Int → List Nat) : List Int → List Nat
  | [] => []
  | q :: l => f q ++ catMap f l

/-- Sum of the per-queue counters along the ordered list. -/
def sumCurops (s : Scheduler) : Nat :=
  (s.opl.map (fun q => match s.pl q with | some pm => pm.curops | none => 0)).sum

/-- Internal consistency of one queue: the cursors delimit exactly the
stored entries and `curops` counts them. -/
def pmInv (pm : priorityMetadata) : Prop :=
  pm.first ≤ pm.last ∧
  pm.curops = (pm.last - pm.first).toNat ∧
  ∀ j : Int, (pm.oplist j).isSome = true ↔ (pm.first ≤ j ∧ j < pm.last)

/-- Scheduler state invariant: the `uint32` global bound, the global
counter as sum of the per-queue counters, the strictly ascending scan
list, and agreement of the map and the list. -/
def Inv (s : Scheduler) : Prop :=
  s.maxops < 2 ^ 32 ∧
  s.curops ≤ s.maxops ∧
  s.curops = sumCurops s ∧
  List.Pairwise (· < ·) s.opl ∧
  (∀ q ∈ s.opl, ∃ pm, s.pl q = some pm ∧ pm.priority = q ∧ pmInv pm) ∧
  (∀ p pm, s.pl p = some pm → p ∈ s.opl)

/-- Command alphabet for admission histories. -/
inductive Cmd where
  | initp (p : Int) (cap : Int)
  | add (p : Int) (o : Nat)

/-- Run a history of `InitPriority`/`Add` calls, collecting the
successful adds in call order. -/
def run : Scheduler → List Cmd → Scheduler × List (Int × Nat)
  | s, [] => (s, [])
  | s, Cmd.initp p cap :: rest => run (InitPriority s p cap) rest
  | s, Cmd.add p o :: rest =>
      match Add s p o with
      | (s1, none) =>
          let r := run s1 rest
          (r.1, (p, o) :: r.2)
      | (s1, some _) => run s1 rest

/-- Dequeue repeatedly through `getNextOp` until nothing is pending (or
the fuel runs out), collecting the released operations in order. -/
def drain (s : Scheduler) : Nat → List Nat
  | 0 => []
  | n + 1 =>
      match getNextOp s with
      | (_, none, _) => []
      | (s1, some o, _) => o :: drain s1 n

/-- The successful adds of a history that went to priority `p`, in call
order. -/
def opsOf (acc : List (Int × Nat)) (p : Int) : List Nat :=
  (acc.filter (fun x => x.1 == p)).map Prod.snd

/-- A reachable-history relation: the state is internally consistent,
each queue holds exactly the not-yet-released successful adds of its
priority in call order, every added priority is in the scan list, and
the global counter counts the pending adds. -/
def GoodState (s : Scheduler) (acc : List (Int × Nat)) : Prop :=
  Inv s ∧ (∀ q ∈ s.opl, pmOpsAt s q = opsOf acc q) ∧
  (∀ x ∈ acc, x.1 ∈ s.opl) ∧ s.curops = acc.length

/-! ### Shutdown ordering (`Stop` versus the tick loop)

`processTicks` selects between a tick (then `execOp`, which sends the
dequeued operation on `opqueue` when workers are used) and the `stop`
signal (then it returns).  `Stop` runs `s.ticker.Stop()`, then
`close(s.opqueue)`, then `s.stop <- true`.  `time.Ticker.Stop` does not
drain a tick already delivered to the ticker channel.  The labelled
transition system below has exactly these moves. -/

/-- The three statements of `Stop`, in source order. -/
inductive StopStmt where
  | tickerStop
  | closeQueue
  | signalStop
deriving DecidableEq, Repr

/-- The body of `Stop` as the sequence of its statements. -/
def stopProgram : List StopStmt := [StopStmt.tickerStop, StopStmt.closeQueue, StopStmt.signalStop]

/-- Joint state of the tick-processing goroutine and a `Stop` caller. -/
structure ShutdownState where
  loopRunning : Bool
  stopPC : Nat
  tickPending : Bool
  closed : Bool
deriving DecidableEq, Repr

/-- Interleaving labels: one `Stop` statement, or the loop consuming a
pending tick (whose `execOp` sends the dequeued operation on
`opqueue`). -/
inductive ShutdownLabel where
  | stopStep (st : StopStmt)
  | loopTick
deriving DecidableEq, Repr

/-- One interleaving step; `none` when the move is not enabled. -/
def stepShutdown (s : ShutdownState) : ShutdownLabel → Option ShutdownState
  | ShutdownLabel.loopTick =>
      if s.loopRunning = true ∧ s.tickPending = true then
        some { s with tickPending := false }
      else none
  | ShutdownLabel.stopStep st =>
      match stopProgram.get? s.stopPC with
      | none => none
      | some st1 =>
          if st = st1 then
            match st with
            | StopStmt.tickerStop => some { s with stopPC := s.stopPC + 1 }
            | StopStmt.closeQueue => some { s with stopPC := s.stopPC + 1, closed := true }
            | StopStmt.signalStop =>
                if s.loopRunning then
                  some { s with stopPC := s.stopPC + 1, loopRunning := false }
                else none
          else none

/-- Does the trace, started at `s`, perform a send on the hand-off
channel (a `loopTick`, whose `execOp` sends) while the channel is
closed?  Invalid traces count as non-violating. -/
def violatingTrace (s : ShutdownState) : List ShutdownLabel → Bool
  | [] => false
  | lab :: rest =>
      match stepShutdown s lab with
      | none => false
      | some s1 =>
          (decide (lab = ShutdownLabel.loopTick) && s.closed) || violatingTrace s1 rest

/-- The state right after `Stop` is entered while a tick is already
pending in the ticker channel. -/
def shutdownInit : ShutdownState :=
  { loopRunning := true, stopPC := 0, tickPending := true, closed := false }


/-! ### Arithmetic facts about the `uint32` embedding -/

theorem inc32_eq_succ {n : Nat} (h : n + 1 < 2 ^ 32) : inc32 n = n + 1 := by
  unfold inc32
  omega

theorem dec32_eq_pred {n : Nat} (h1 : 1 ≤ n) (h2 : n < 2 ^ 32) : dec32 n = n - 1 := by
  unfold dec32
  omega

theorem toUint32_lt (m : Int) : toUint32 m < 2 ^ 32 := by
  unfold toUint32
  have h1 := Int.emod_lt_of_pos m (show (0 : Int) < 2 ^ 32 by norm_num)
  have h2 := Int.emod_nonneg m (show (2 ^ 32 : Int) ≠ 0 by norm_num)
  omega

theorem getMaxops_ne_zero (m : Int) : getMaxops m ≠ 0 := by
  unfold getMaxops dec32
  by_cases h : toUint32 m = 0 <;> simp [h]

theorem getMaxops_lt (m : Int) : getMaxops m < 2 ^ 32 := by
  unfold getMaxops dec32
  have := toUint32_lt m
  by_cases h : toUint32 m = 0 <;> simp [h] <;> omega

theorem Config.maxops_lt (c : Config) : c.maxops < 2 ^ 32 := by
  unfold Config.maxops
  have := toUint32_lt c.MaxQueueSize
  by_cases h : c.MaxQueueSize ≤ 0 <;> simp [h] <;> omega

/-! ### Queue-level lemmas -/

theorem filterMap_range_length (f : Nat → Option Nat) :
    ∀ n, (∀ k, k < n → (f k).isSome = true) →
      ((List.range n).filterMap f).length = n := by
  intro n
  induction n with
  | zero => intro _; rfl
  | succ m ih =>
      intro h
      rw [List.range_succ, List.filterMap_append, List.length_append, ih (fun k hk => h k (by omega))]
      have hm := h m (by omega)
      cases hfm : f m with
      | none => rw [hfm] at hm; simp at hm
      | some b => simp [hfm]

theorem filterMap_range_congr {f g : Nat → Option Nat} (n : Nat)
    (h : ∀ k, k < n → f k = g k) :
    (List.range n).filterMap f = (List.range n).filterMap g := by
  induction n with
  | zero => rfl
  | succ m ih =>
      rw [List.range_succ, List.filterMap_append, List.filterMap_append,
        ih (fun k hk => h k (by omega))]
      have hm : f m = g m := h m (by omega)
      simp [List.filterMap_cons, hm]

theorem pmOps_length {pm : priorityMetadata} (h : pmInv pm) :
    (pmOps pm).length = pm.curops := by
  obtain ⟨h1, h2, h3⟩ := h
  unfold pmOps
  rw [filterMap_range_length]
  · omega
  · intro k hk
    rw [h3]
    omega

theorem pmOps_eq_nil_iff {pm : priorityMetadata} (h : pmInv pm) :
    pmOps pm = [] ↔ pm.last = pm.first := by
  obtain ⟨h1, h2, h3⟩ := h
  rw [← List.length_eq_zero, pmOps_length ⟨h1, h2, h3⟩]
  omega

theorem pmOps_newPriorityMetadata (p : Int) (m : Int) :
    pmOps (newPriorityMetadata p m) = [] := rfl

theorem pmInv_newPriorityMetadata (p : Int) (m : Int) :
    pmInv (newPriorityMetadata p m) := by
  refine ⟨le_refl 0, rfl, fun j => ?_⟩
  simp [newPriorityMetadata]

theorem AddOperation_fail {pm : priorityMetadata} (o : Nat)
    (h : pm.curops = pm.maxops) :
    AddOperation pm o = (pm, some SchedErr.ErrPriorityCapacity) := by
  simp [AddOperation, h]

theorem AddOperation_succ {pm : priorityMetadata} (o : Nat)
    (h : pm.curops ≠ pm.maxops) :
    AddOperation pm o =
      ({ pm with
          curops := inc32 pm.curops
          oplist := fun j => if j = pm.last then some o else pm.oplist j
          last := pm.last + 1 }, none) := by
  simp [AddOperation, h]

theorem pmOps_AddOperation {pm : priorityMetadata} (o : Nat)
    (hfl : pm.first ≤ pm.last) (h : pm.curops ≠ pm.maxops) :
    pmOps (AddOperation pm o).1 = pmOps pm ++ [o] := by
  rw [AddOperation_succ o h]
  unfold pmOps
  simp only
  have hn : (pm.last + 1 - pm.first).toNat = (pm.last - pm.first).toNat + 1 := by omega
  rw [hn, List.range_succ, List.filterMap_append]
  congr 1
  · apply filterMap_range_congr
    intro k hk
    have : pm.first + (k : Int) ≠ pm.last := by omega
    simp [this]
  · have hx : pm.first + ((pm.last - pm.first).toNat : Int) = pm.last := by omega
    simp only [List.filterMap_cons, List.filterMap_nil, hx, eq_self_iff_true, if_true]

theorem pmInv_AddOperation {pm : priorityMetadata} (o : Nat)
    (hinv : pmInv pm) (hb : pm.curops + 1 < 2 ^ 32) (h : pm.curops ≠ pm.maxops) :
    pmInv (AddOperation pm o).1 := by
  obtain ⟨h1, h2, h3⟩ := hinv
  rw [AddOperation_succ o h]
  refine ⟨by simp; omega, ?_, fun j => ?_⟩
  · simp [inc32_eq_succ hb]
    omega
  · simp only
    by_cases hj : j = pm.last
    · subst hj; simp; omega
    · simp only [hj, if_false]
      rw [h3]
      omega

theorem GetOperation_empty {pm : priorityMetadata} (h : pm.last = pm.first) :
    GetOperation pm = { pm := pm, op := none, ok := false, events := [] } := by
  simp [GetOperation, h]

theorem GetOperation_some {pm : priorityMetadata} (h : pm.last ≠ pm.first) :
    GetOperation pm =
      { pm := { pm with
            oplist := fun j => if j = pm.first then none else pm.oplist j
            first := pm.first + 1
            curops := dec32 pm.curops }
        op := pm.oplist pm.first
        ok := true
        events := if dec32 pm.curops = pm.Minimum ∧ pm.hasCallback = true
                  then [pm.priority] else [] } := by
  simp [GetOperation, h]

theorem GetOperation_head {pm : priorityMetadata}
    (hinv : pmInv pm) (hb : pm.curops < 2 ^ 32) (h : pm.last ≠ pm.first) :
    ∃ o, pm.oplist pm.first = some o ∧ (GetOperation pm).op = some o ∧
      pmOps pm = o :: pmOps (GetOperation pm).pm ∧
      pmInv (GetOperation pm).pm ∧
      (GetOperation pm).pm.curops + 1 = pm.curops ∧
      (GetOperation pm).pm.priority = pm.priority ∧
      (GetOperation pm).ok = true := by
  obtain ⟨h1, h2, h3⟩ := hinv
  have hfl : pm.first < pm.last := by omega
  have hsome : (pm.oplist pm.first).isSome = true := by
    rw [h3]; omega
  obtain ⟨o, ho⟩ := Option.isSome_iff_exists.mp hsome
  refine ⟨o, ho, ?_, ?_, ?_, ?_, ?_, ?_⟩
  · rw [GetOperation_some h]; exact ho
  · rw [GetOperation_some h]
    unfold pmOps
    simp only
    have hn : (pm.last - pm.first).toNat = (pm.last - (pm.first + 1)).toNat + 1 := by omega
    rw [hn, List.range_succ_eq_map, List.filterMap_cons, List.filterMap_map]
    have h0 : pm.first + ((0 : Nat) : Int) = pm.first := by omega
    rw [h0, ho]
    show o :: _ = o :: _
    congr 1
    apply filterMap_range_congr
    intro k hk
    have hne : pm.first + 1 + (k : Int) ≠ pm.first := by omega
    have hc : pm.first + ((Nat.succ k : Nat) : Int) = pm.first + 1 + (k : Int) := by
      push_cast; ring
    simp only [Function.comp_apply]
    rw [hc]
    simp [hne]
  · rw [GetOperation_some h]
    have hc1 : pm.curops ≥ 1 := by omega
    refine ⟨by simp; omega, ?_, fun j => ?_⟩
    · simp [dec32_eq_pred hc1 hb]
      omega
    · simp only
      by_cases hj : j = pm.first
      · subst hj
        simp
      · simp only [hj, if_false]
        rw [h3]
        omega
  · rw [GetOperation_some h]
    have hc1 : pm.curops ≥ 1 := by omega
    show dec32 pm.curops + 1 = pm.curops
    rw [dec32_eq_pred hc1 hb]
    omega
  · rw [GetOperation_some h]
  · rw [GetOperation_some h]



/-! ### The reorder loop of `InitPriority` -/

theorem oplBody_length (p : Int) (l : List Int) (i : Nat) :
    (oplBody p l i).length = l.length := by
  unfold oplBody
  by_cases h : l.getD i 0 < l.getD (i - 1) 0
  · rw [if_pos h]
    simp
  · rw [if_neg h]

theorem oplLoop_length (p : Int) :
    ∀ (i : Nat) (l : List Int), (oplLoop p l i).length = l.length := by
  intro i
  induction i with
  | zero => intro l; rfl
  | succ m ih =>
      intro l
      simp only [oplLoop]
      rw [ih, oplBody_length]

theorem oplBody_append (p : Int) (B C : List Int) (j : Nat)
    (h : j < B.length) :
    oplBody p (B ++ C) j = oplBody p B j ++ C := by
  unfold oplBody
  have h1 : j - 1 < B.length := by omega
  rw [List.getD_append B C 0 j h, List.getD_append B C 0 (j - 1) h1]
  by_cases hc : B.getD j 0 < B.getD (j - 1) 0
  · simp only [hc, if_true]
    rw [List.set_append_left j (B.getD (j - 1) 0) h]
    rw [List.set_append_left (j - 1) p (by rw [List.length_set]; omega)]
  · simp only [hc, if_false]

theorem oplLoop_append (p : Int) (C : List Int) :
    ∀ (i : Nat) (B : List Int), i < B.length →
      oplLoop p (B ++ C) i = oplLoop p B i ++ C := by
  intro i
  induction i with
  | zero => intro B _; rfl
  | succ m ih =>
      intro B h
      simp only [oplLoop]
      rw [oplBody_append p B C (m + 1) h]
      exact ih (oplBody p B (m + 1)) (by rw [oplBody_length]; omega)

theorem oplLoop_noop (p : Int) :
    ∀ (i : Nat) (l : List Int),
      (∀ j, 1 ≤ j → j ≤ i → ¬ l.getD j 0 < l.getD (j - 1) 0) →
      oplLoop p l i = l := by
  intro i
  induction i with
  | zero => intro l _; rfl
  | succ m ih =>
      intro l hnd
      simp only [oplLoop]
      have hb : oplBody p l (m + 1) = l := by
        unfold oplBody
        rw [if_neg (hnd (m + 1) (by omega) (le_refl _))]
      rw [hb]
      exact ih l (fun j hj1 hj2 => hnd j hj1 (by omega))

theorem getD_concat (u : List Int) (x : Int) (rest : List Int) :
    (u ++ x :: rest).getD u.length 0 = x := by
  rw [List.getD_append_right u (x :: rest) 0 u.length (le_refl _)]
  simp

theorem set_concat (u : List Int) (x v : Int) (rest : List Int) :
    (u ++ x :: rest).set u.length v = u ++ v :: rest := by
  rw [List.set_append_right u.length v (le_refl _)]
  simp

theorem oplLoop_insert (pv : Int) :
    ∀ (d t : List Int),
      List.Pairwise (· ≤ ·) t → (∀ a ∈ t, a ≤ pv) → (∀ a ∈ d, pv < a) →
      oplLoop pv (t ++ d ++ [pv]) (t.length + d.length) = t ++ pv :: d := by
  intro d
  induction d using List.reverseRecOn with
  | nil =>
      intro t ht htp _
      simp only [List.append_nil, List.length_nil, Nat.add_zero]
      apply oplLoop_noop
      intro j hj1 hj2
      by_cases hjt : j < t.length
      · rw [List.getD_append t [pv] 0 j hjt, List.getD_append t [pv] 0 (j - 1) (by omega)]
        rw [List.getD_eq_getElem t 0 hjt, List.getD_eq_getElem t 0 (show j - 1 < t.length by omega)]
        have := List.pairwise_iff_getElem.mp ht (j - 1) j (by omega) hjt (by omega)
        omega
      · have hjl : j = t.length := by omega
        subst hjl
        rw [getD_concat t pv []]
        rw [List.getD_append t [pv] 0 (t.length - 1) (by omega)]
        rw [List.getD_eq_getElem t 0 (show t.length - 1 < t.length by omega)]
        have hmem : t[t.length - 1] ∈ t := List.getElem_mem _
        have := htp _ hmem
        omega
  | append_singleton d1 b ih =>
      intro t ht htp hd
      have hdb : pv < b := hd b (by simp)
      have hd1 : ∀ a ∈ d1, pv < a := fun a ha => hd a (by simp [ha])
      have hlen : t.length + (d1 ++ [b]).length = (t.length + d1.length) + 1 := by
        simp only [List.length_append, List.length_cons, List.length_nil]
        omega
      rw [hlen]
      simp only [oplLoop]
      have hA : t ++ (d1 ++ [b]) ++ [pv] = (t ++ d1) ++ [b, pv] := by
        simp [List.append_assoc]
      have hstep : oplBody pv (t ++ (d1 ++ [b]) ++ [pv]) (t.length + d1.length + 1)
          = (t ++ d1 ++ [pv]) ++ [b] := by
        rw [hA]
        unfold oplBody
        have hu : t.length + d1.length + 1 = ((t ++ d1) ++ [b]).length := by
          simp only [List.length_append, List.length_cons, List.length_nil]
        have hg1 : ((t ++ d1) ++ [b, pv]).getD (t.length + d1.length + 1) 0 = pv := by
          have : (t ++ d1) ++ [b, pv] = ((t ++ d1) ++ [b]) ++ pv :: [] := by
            simp [List.append_assoc]
          rw [this, hu, getD_concat]
        have hg0 : ((t ++ d1) ++ [b, pv]).getD (t.length + d1.length + 1 - 1) 0 = b := by
          have h2 : t.length + d1.length + 1 - 1 = (t ++ d1).length := by
            simp only [List.length_append]
            omega
          rw [h2, getD_concat]
        rw [hg1, hg0, if_pos hdb]
        have hs1 : ((t ++ d1) ++ [b, pv]).set (t.length + d1.length + 1) b
            = (t ++ d1) ++ [b, b] := by
          have h3 : (t ++ d1) ++ [b, pv] = ((t ++ d1) ++ [b]) ++ pv :: [] := by
            simp [List.append_assoc]
          rw [h3, hu, set_concat]
          simp [List.append_assoc]
        rw [hs1]
        have h4 : t.length + d1.length + 1 - 1 = (t ++ d1).length := by
          simp only [List.length_append]
          omega
        have h5 : (t ++ d1) ++ [b, b] = (t ++ d1) ++ b :: [b] := rfl
        rw [h4, h5, set_concat]
        simp [List.append_assoc]
      rw [hstep]
      have hlt : t.length + d1.length < (t ++ d1 ++ [pv]).length := by
        simp only [List.length_append, List.length_cons, List.length_nil]
        omega
      rw [oplLoop_append pv [b] (t.length + d1.length) (t ++ d1 ++ [pv]) hlt]
      rw [ih t ht htp hd1]
      simp [List.append_assoc]

/-- All elements a strictly sorted list drops past the `≤ pv` point are
greater than `pv`. -/
theorem dropWhile_all_gt (pv : Int) :
    ∀ l : List Int, List.Pairwise (· < ·) l →
      ∀ a ∈ l.dropWhile (fun x => decide (x ≤ pv)), pv < a := by
  intro l
  induction l with
  | nil => intro _ a ha; simp [List.dropWhile] at ha
  | cons x xs ih =>
      intro hp a ha
      rw [List.pairwise_cons] at hp
      by_cases hx : x ≤ pv
      · rw [List.dropWhile_cons_of_pos (by simp [hx])] at ha
        exact ih hp.2 a ha
      · rw [List.dropWhile_cons_of_neg (by simp [hx])] at ha
        rcases List.mem_cons.mp ha with h1 | h1
        · omega
        · have := hp.1 a h1
          omega

theorem takeWhile_all_le (pv : Int) (l : List Int) :
    ∀ a ∈ l.takeWhile (fun x => decide (x ≤ pv)), a ≤ pv := by
  intro a ha
  have := List.mem_takeWhile_imp ha
  simpa using this

/-- Effect of the new-priority branch of `InitPriority` on the ordered
list: the result is the old strictly sorted list with the new priority
spliced in at its sorted position. -/
theorem oplLoop_new (pv : Int) (l : List Int)
    (hp : List.Pairwise (· < ·) l) :
    oplLoop pv (l ++ [pv]) ((l ++ [pv]).length - 1)
      = l.takeWhile (fun x => decide (x ≤ pv)) ++ pv :: l.dropWhile (fun x => decide (x ≤ pv)) := by
  have hsplit : l.takeWhile (fun x => decide (x ≤ pv)) ++ l.dropWhile (fun x => decide (x ≤ pv)) = l :=
    List.takeWhile_append_dropWhile (fun x => decide (x ≤ pv)) l
  have hc := congrArg List.length hsplit
  rw [List.length_append] at hc
  have hlen : (l ++ [pv]).length - 1
      = (l.takeWhile (fun x => decide (x ≤ pv))).length
        + (l.dropWhile (fun x => decide (x ≤ pv))).length := by
    simp only [List.length_append, List.length_cons, List.length_nil]
    omega
  rw [hlen]
  have hlist : l ++ [pv]
      = l.takeWhile (fun x => decide (x ≤ pv))
        ++ l.dropWhile (fun x => decide (x ≤ pv)) ++ [pv] := by
    rw [hsplit]
  rw [hlist]
  exact oplLoop_insert pv (l.dropWhile (fun x => decide (x ≤ pv)))
    (l.takeWhile (fun x => decide (x ≤ pv)))
    ((hp.sublist (List.takeWhile_sublist _)).imp (fun h => le_of_lt h))
    (takeWhile_all_le pv l)
    (dropWhile_all_gt pv l hp)

theorem pairwise_insert (pv : Int) (l : List Int)
    (hp : List.Pairwise (· < ·) l) (hnm : pv ∉ l) :
    List.Pairwise (· < ·)
      (l.takeWhile (fun x => decide (x ≤ pv)) ++ pv :: l.dropWhile (fun x => decide (x ≤ pv))) := by
  have hsplit : l.takeWhile (fun x => decide (x ≤ pv)) ++ l.dropWhile (fun x => decide (x ≤ pv)) = l :=
    List.takeWhile_append_dropWhile (fun x => decide (x ≤ pv)) l
  have hpa : List.Pairwise (· < ·)
      (l.takeWhile (fun x => decide (x ≤ pv)) ++ l.dropWhile (fun x => decide (x ≤ pv))) := by
    rw [hsplit]; exact hp
  rw [List.pairwise_append] at hpa
  rw [List.pairwise_append]
  refine ⟨hpa.1, ?_, ?_⟩
  · rw [List.pairwise_cons]
    exact ⟨dropWhile_all_gt pv l hp, hpa.2.1⟩
  · intro a ha b hb
    rcases List.mem_cons.mp hb with h1 | h1
    · have h2 := takeWhile_all_le pv l a ha
      have h3 : a ≠ pv := by
        intro hab
        apply hnm
        rw [← hab]
        exact (hsplit ▸ List.mem_append_left _ ha)
      rw [h1]
      omega
    · exact hpa.2.2 a ha b h1

theorem perm_insert (pv : Int) (l : List Int) :
    List.Perm
      (l.takeWhile (fun x => decide (x ≤ pv)) ++ pv :: l.dropWhile (fun x => decide (x ≤ pv)))
      (pv :: l) := by
  have h1 : List.Perm
      (l.takeWhile (fun x => decide (x ≤ pv)) ++ pv :: l.dropWhile (fun x => decide (x ≤ pv)))
      (pv :: (l.takeWhile (fun x => decide (x ≤ pv)) ++ l.dropWhile (fun x => decide (x ≤ pv)))) :=
    List.perm_middle
  rw [List.takeWhile_append_dropWhile (fun x => decide (x ≤ pv)) l] at h1
  exact h1



/-! ### Scheduler-level equations -/

theorem InitPriority_existing {s : Scheduler} {p : Int} {pr : priorityMetadata} (m : Int)
    (h : s.pl p = some pr) :
    InitPriority s p m =
      { s with pl := fun q => if q = p then some { pr with maxops := getMaxops m } else s.pl q } := by
  unfold InitPriority
  rw [h]

theorem InitPriority_new_eq {s : Scheduler} {p : Int} (m : Int) (h : s.pl p = none) :
    InitPriority s p m =
      { s with
          pl := fun q => if q = p then some (newPriorityMetadata p m) else s.pl q
          opl := oplLoop p (s.opl ++ [p]) ((s.opl ++ [p]).length - 1) } := by
  unfold InitPriority
  rw [h]

theorem getPriorityMetadata_some {s : Scheduler} {p : Int} {pm : priorityMetadata}
    (h : s.pl p = some pm) :
    getPriorityMetadata s p = (s, Except.ok pm) := by
  unfold getPriorityMetadata
  rw [h]

theorem getPriorityMetadata_noauto {s : Scheduler} {p : Int}
    (h : s.pl p = none) (hpai : s.pai = false) :
    getPriorityMetadata s p = (s, Except.error SchedErr.ErrInvalidPriority) := by
  unfold getPriorityMetadata
  rw [h, hpai]
  simp

theorem getPriorityMetadata_auto {s : Scheduler} {p : Int}
    (h : s.pl p = none) (hpai : s.pai = true) :
    getPriorityMetadata s p =
      (InitPriority s p s.pdc, Except.ok (newPriorityMetadata p s.pdc)) := by
  have h2 : (InitPriority s p s.pdc).pl p = some (newPriorityMetadata p s.pdc) := by
    rw [InitPriority_new_eq s.pdc h]
    simp
  unfold getPriorityMetadata
  rw [h, hpai]
  simp [h2]

theorem Add_maxed {s : Scheduler} (p : Int) (o : Nat) (h : s.maxops ≤ s.curops) :
    Add s p o = (s, some SchedErr.ErrMaxCapacity) := by
  unfold Add
  rw [if_pos h]

theorem Add_noqueue {s : Scheduler} (p : Int) (o : Nat)
    (hm : ¬ s.maxops ≤ s.curops) (h : s.pl p = none) (hpai : s.pai = false) :
    Add s p o = (s, some SchedErr.ErrInvalidPriority) := by
  unfold Add
  rw [if_neg hm, getPriorityMetadata_noauto h hpai]

theorem Add_queue_full {s : Scheduler} {pm : priorityMetadata} (p : Int) (o : Nat)
    (hm : ¬ s.maxops ≤ s.curops) (h : s.pl p = some pm) (hf : pm.curops = pm.maxops) :
    Add s p o = (s, some SchedErr.ErrPriorityCapacity) := by
  unfold Add
  rw [if_neg hm, getPriorityMetadata_some h]
  simp only [AddOperation_fail o hf]

theorem Add_success_existing {s : Scheduler} {pm : priorityMetadata} (p : Int) (o : Nat)
    (hm : ¬ s.maxops ≤ s.curops) (h : s.pl p = some pm) (hf : pm.curops ≠ pm.maxops) :
    Add s p o =
      ({ s with
          pl := fun q => if q = p then some (AddOperation pm o).1 else s.pl q
          curops := inc32 s.curops }, none) := by
  unfold Add
  rw [if_neg hm, getPriorityMetadata_some h]
  simp only [AddOperation_succ o hf]

theorem Add_success_auto {s : Scheduler} (p : Int) (o : Nat)
    (hm : ¬ s.maxops ≤ s.curops) (h : s.pl p = none) (hpai : s.pai = true) :
    Add s p o =
      ({ InitPriority s p s.pdc with
          pl := fun q => if q = p
                then some (AddOperation (newPriorityMetadata p s.pdc) o).1
                else (InitPriority s p s.pdc).pl q
          curops := inc32 (InitPriority s p s.pdc).curops }, none) := by
  have hf : (newPriorityMetadata p s.pdc).curops ≠ (newPriorityMetadata p s.pdc).maxops := by
    have := getMaxops_ne_zero s.pdc
    simp [newPriorityMetadata]
    omega
  unfold Add
  rw [if_neg hm, getPriorityMetadata_auto h hpai]
  simp only [AddOperation_succ o hf]

theorem SetMinimumCallback_some {s : Scheduler} {pm : priorityMetadata} (p : Int) (m : Int)
    (h : s.pl p = some pm) :
    SetMinimumCallback s p m =
      ({ s with pl := fun q => if q = p
            then some { pm with Minimum := toUint32 m, hasCallback := true }
            else s.pl q },
       none,
       if pm.curops ≤ toUint32 m then [pm.priority] else []) := by
  unfold SetMinimumCallback
  rw [getPriorityMetadata_some h]

theorem SetMinimumCallback_noauto {s : Scheduler} (p : Int) (m : Int)
    (h : s.pl p = none) (hpai : s.pai = false) :
    SetMinimumCallback s p m = (s, some SchedErr.ErrInvalidPriority, []) := by
  unfold SetMinimumCallback
  rw [getPriorityMetadata_noauto h hpai]

theorem SetMinimumCallback_auto {s : Scheduler} (p : Int) (m : Int)
    (h : s.pl p = none) (hpai : s.pai = true) :
    SetMinimumCallback s p m =
      ({ InitPriority s p s.pdc with
          pl := fun q => if q = p
                then some { newPriorityMetadata p s.pdc with
                    Minimum := toUint32 m, hasCallback := true }
                else (InitPriority s p s.pdc).pl q },
       none, [p]) := by
  unfold SetMinimumCallback
  rw [getPriorityMetadata_auto h hpai]
  simp [newPriorityMetadata]

theorem sum_map_update (l : List Int) (q : Int) (f : Int → Nat) (a : Nat)
    (hnd : l.Nodup) (hq : q ∈ l) :
    (l.map (fun x => if x = q then a else f x)).sum + f q = (l.map f).sum + a := by
  induction l with
  | nil => cases hq
  | cons x xs ih =>
      rw [List.nodup_cons] at hnd
      by_cases h1 : x = q
      · subst h1
        have hcong : ∀ y ∈ xs, (if y = x then a else f y) = f y := by
          intro y hy
          have hne : y ≠ x := fun he => hnd.1 (he ▸ hy)
          simp [hne]
        simp only [List.map_cons, List.sum_cons]
        rw [List.map_congr_left hcong]
        simp only [eq_self_iff_true, if_true]
        omega
      · have hqxs : q ∈ xs := by
          rcases List.mem_cons.mp hq with h2 | h2
          · exact absurd h2.symm h1
          · exact h2
        simp only [List.map_cons, List.sum_cons, if_neg h1]
        have := ih hnd.2 hqxs
        omega

theorem catMap_congr {f g : Int → List Nat} :
    ∀ l : List Int, (∀ q ∈ l, f q = g q) → catMap f l = catMap g l := by
  intro l
  induction l with
  | nil => intro _; rfl
  | cons x xs ih =>
      intro h
      unfold catMap
      rw [h x (by simp), ih (fun q hq => h q (by simp [hq]))]

theorem catMap_length (f : Int → List Nat) :
    ∀ l : List Int, (catMap f l).length = (l.map (fun q => (f q).length)).sum := by
  intro l
  induction l with
  | nil => rfl
  | cons x xs ih =>
      unfold catMap
      rw [List.length_append, ih, List.map_cons, List.sum_cons]



/-! ### Invariant preservation -/

theorem Inv_New (c : Config) : Inv (New c) := by
  refine ⟨Config.maxops_lt c, Nat.zero_le _, rfl, List.Pairwise.nil, ?_, ?_⟩
  · intro q hq
    cases hq
  · intro p pm h
    simp [New] at h

theorem not_mem_opl {s : Scheduler} {p : Int} (hInv : Inv s) (hpl : s.pl p = none) :
    p ∉ s.opl := by
  intro hmem
  obtain ⟨_, _, _, _, hq, _⟩ := hInv
  obtain ⟨pm, h1, _, _⟩ := hq p hmem
  rw [hpl] at h1
  cases h1

theorem sumCurops_pl_update {s : Scheduler} {p : Int} (pm1 : priorityMetadata) (c1 : Nat)
    (hnd : s.opl.Nodup) (hp : p ∈ s.opl) (c0 : Nat)
    (hc0 : (match s.pl p with | some pm => pm.curops | none => 0) = c0) :
    sumCurops { s with pl := fun q => if q = p then some pm1 else s.pl q, curops := c1 } + c0
      = sumCurops s + pm1.curops := by
  unfold sumCurops
  simp only
  have hfun : ∀ q ∈ s.opl,
      (match (if q = p then some pm1 else s.pl q) with | some pm => pm.curops | none => 0)
        = (fun x => if x = p then pm1.curops
            else (match s.pl x with | some pm => pm.curops | none => 0)) q := by
    intro q _
    by_cases hq : q = p <;> simp [hq]
  rw [List.map_congr_left hfun]
  have hs := sum_map_update s.opl p
    (fun x => match s.pl x with | some pm => pm.curops | none => 0) pm1.curops hnd hp
  simp only at hs
  omega

theorem InitPriority_fields (s : Scheduler) (p m : Int) :
    (InitPriority s p m).curops = s.curops ∧ (InitPriority s p m).maxops = s.maxops ∧
    (InitPriority s p m).pai = s.pai ∧ (InitPriority s p m).pdc = s.pdc := by
  cases hpl : s.pl p with
  | some pr => rw [InitPriority_existing m hpl]; exact ⟨rfl, rfl, rfl, rfl⟩
  | none => rw [InitPriority_new_eq m hpl]; exact ⟨rfl, rfl, rfl, rfl⟩

theorem AddOperation_fields {pm : priorityMetadata} (o : Nat) (hf : pm.curops ≠ pm.maxops) :
    (AddOperation pm o).1.curops = inc32 pm.curops ∧
    (AddOperation pm o).1.priority = pm.priority ∧
    (AddOperation pm o).1.first = pm.first ∧
    (AddOperation pm o).1.last = pm.last + 1 := by
  rw [AddOperation_succ o hf]
  exact ⟨rfl, rfl, rfl, rfl⟩

theorem curops_le_sum {s : Scheduler} {p : Int} {pm : priorityMetadata}
    (hp : p ∈ s.opl) (hpl : s.pl p = some pm) :
    pm.curops ≤ sumCurops s := by
  unfold sumCurops
  have h1 : (match s.pl p with | some x => x.curops | none => 0)
      ∈ s.opl.map (fun q => match s.pl q with | some x => x.curops | none => 0) :=
    List.mem_map_of_mem _ hp
  have h2 : (match s.pl p with | some x => x.curops | none => 0) = pm.curops := by
    rw [hpl]
  rw [h2] at h1
  exact List.single_le_sum (fun x _ => Nat.zero_le x) _ h1

theorem map_sum_cons_zero (g h : Int → Nat) (x : Int) (l : List Int)
    (hx : g x = 0) (hcong : ∀ q ∈ l, g q = h q) :
    (List.map g (x :: l)).sum = (List.map h l).sum := by
  rw [List.map_cons, List.sum_cons, hx, List.map_congr_left hcong]
  omega

theorem queue_facts {s : Scheduler} {p : Int} {pm : priorityMetadata}
    (hq : ∀ q ∈ s.opl, ∃ x, s.pl q = some x ∧ x.priority = q ∧ pmInv x)
    (hp : p ∈ s.opl) (hpl : s.pl p = some pm) :
    pm.priority = p ∧ pmInv pm := by
  obtain ⟨x, h1, h2, h3⟩ := hq p hp
  rw [hpl] at h1
  have he : pm = x := by injection h1
  subst he
  exact ⟨h2, h3⟩

theorem Inv_InitPriority {s : Scheduler} (hInv : Inv s) (p m : Int) :
    Inv (InitPriority s p m) := by
  obtain ⟨hmax, hcm, hsum, hpw, hq, hmem⟩ := hInv
  cases hpl : s.pl p with
  | some pr =>
      rw [InitPriority_existing m hpl]
      have hp_opl : p ∈ s.opl := hmem p pr hpl
      refine ⟨hmax, hcm, ?_, hpw, ?_, ?_⟩
      · have := sumCurops_pl_update { pr with maxops := getMaxops m }
          s.curops hpw.nodup hp_opl pr.curops (by rw [hpl])
        simp only at this ⊢
        omega
      · intro q hq2
        by_cases hqp : q = p
        · subst hqp
          obtain ⟨h2, h3⟩ := queue_facts hq hq2 hpl
          exact ⟨{ pr with maxops := getMaxops m }, by simp, h2, h3.1, h3.2.1, h3.2.2⟩
        · obtain ⟨pm0, h1, h2, h3⟩ := hq q hq2
          exact ⟨pm0, by simp [hqp, h1], h2, h3⟩
      · intro p1 pm1 h1
        by_cases hp1 : p1 = p
        · subst hp1; exact hp_opl
        · simp only [hp1, if_false] at h1
          exact hmem p1 pm1 h1
  | none =>
      rw [InitPriority_new_eq m hpl]
      have hnotin : p ∉ s.opl := not_mem_opl ⟨hmax, hcm, hsum, hpw, hq, hmem⟩ hpl
      have hL := oplLoop_new p s.opl hpw
      have hLpw : List.Pairwise (· < ·)
          (oplLoop p (s.opl ++ [p]) ((s.opl ++ [p]).length - 1)) := by
        rw [hL]; exact pairwise_insert p s.opl hpw hnotin
      have hLperm : List.Perm
          (oplLoop p (s.opl ++ [p]) ((s.opl ++ [p]).length - 1)) (p :: s.opl) := by
        rw [hL]; exact perm_insert p s.opl
      have hLmem : ∀ q, q ∈ oplLoop p (s.opl ++ [p]) ((s.opl ++ [p]).length - 1)
          ↔ (q = p ∨ q ∈ s.opl) := by
        intro q
        rw [hLperm.mem_iff, List.mem_cons]
      refine ⟨hmax, hcm, ?_, hLpw, ?_, ?_⟩
      · -- the new queue is empty, so the sum is unchanged
        unfold sumCurops
        simp only
        have hperm2 := hLperm.map
          (fun q => match (if q = p then some (newPriorityMetadata p m) else s.pl q) with
                    | some pm => pm.curops | none => 0)
        rw [hperm2.sum_eq]
        have hcong : ∀ q ∈ s.opl,
            (match (if q = p then some (newPriorityMetadata p m) else s.pl q) with
             | some pm => pm.curops | none => 0)
              = (match s.pl q with | some pm => pm.curops | none => 0) := by
          intro q hq2
          have hne : q ≠ p := fun he => hnotin (he ▸ hq2)
          simp [hne]
        have hstep := map_sum_cons_zero
          (fun q => match (if q = p then some (newPriorityMetadata p m) else s.pl q) with
            | some pm => pm.curops | none => 0)
          (fun x => match s.pl x with | some pm => pm.curops | none => 0)
          p s.opl (by simp [newPriorityMetadata]) hcong
        rw [hstep, hsum]
        unfold sumCurops
        rfl
      · intro q hq2
        rw [hLmem q] at hq2
        rcases hq2 with h1 | h1
        · subst h1
          exact ⟨newPriorityMetadata q m, by simp, rfl, pmInv_newPriorityMetadata q m⟩
        · have hne : q ≠ p := fun he => hnotin (he ▸ h1)
          obtain ⟨pm0, h2, h3, h4⟩ := hq q h1
          exact ⟨pm0, by simp [hne, h2], h3, h4⟩
      · intro p1 pm1 h1
        rw [hLmem p1]
        by_cases hp1 : p1 = p
        · exact Or.inl hp1
        · simp only [hp1, if_false] at h1
          exact Or.inr (hmem p1 pm1 h1)

theorem Inv_enqueue {s : Scheduler} {p : Int} {pm : priorityMetadata} (o : Nat)
    (hInv : Inv s) (hpl : s.pl p = some pm) (hf : pm.curops ≠ pm.maxops)
    (hm : ¬ s.maxops ≤ s.curops) :
    Inv { s with
        pl := fun q => if q = p then some (AddOperation pm o).1 else s.pl q
        curops := inc32 s.curops }
    ∧ inc32 s.curops = s.curops + 1 := by
  obtain ⟨hmax, hcm, hsum, hpw, hq, hmem⟩ := hInv
  have hp_opl : p ∈ s.opl := hmem p pm hpl
  have hpminv : pmInv pm := (queue_facts hq hp_opl hpl).2
  have hcur_lt : s.curops < s.maxops := by omega
  have hinc : inc32 s.curops = s.curops + 1 := inc32_eq_succ (by omega)
  have hpmle : pm.curops ≤ s.curops := by
    rw [hsum]
    exact curops_le_sum hp_opl hpl
  have hb : pm.curops + 1 < 2 ^ 32 := by omega
  have hpm1c : (AddOperation pm o).1.curops = pm.curops + 1 := by
    rw [(AddOperation_fields o hf).1, inc32_eq_succ hb]
  refine ⟨⟨hmax, ?_, ?_, hpw, ?_, ?_⟩, hinc⟩
  · simp only
    omega
  · simp only
    have := sumCurops_pl_update (AddOperation pm o).1
      (inc32 s.curops) hpw.nodup hp_opl pm.curops (by rw [hpl])
    omega
  · intro q hq2
    by_cases hqp : q = p
    · subst hqp
      obtain ⟨h2, _⟩ := queue_facts hq hq2 hpl
      refine ⟨(AddOperation pm o).1, by simp, ?_, ?_⟩
      · rw [(AddOperation_fields o hf).2.1]
        exact h2
      · exact pmInv_AddOperation o hpminv hb hf
    · obtain ⟨pm0, h1, h2, h3⟩ := hq q hq2
      exact ⟨pm0, by simp [hqp, h1], h2, h3⟩
  · intro p1 pm1 h1
    by_cases hp1 : p1 = p
    · subst hp1; exact hp_opl
    · simp only [hp1, if_false] at h1
      exact hmem p1 pm1 h1

theorem Inv_Add {s : Scheduler} (hInv : Inv s) (p : Int) (o : Nat) :
    Inv (Add s p o).1 := by
  by_cases hm : s.maxops ≤ s.curops
  · rw [Add_maxed p o hm]; exact hInv
  · cases hpl : s.pl p with
    | none =>
        cases hpai : s.pai with
        | false => rw [Add_noqueue p o hm hpl hpai]; exact hInv
        | true =>
            rw [Add_success_auto p o hm hpl hpai]
            have hInv1 := Inv_InitPriority hInv p s.pdc
            have hfields := InitPriority_fields s p s.pdc
            have hpl1 : (InitPriority s p s.pdc).pl p = some (newPriorityMetadata p s.pdc) := by
              rw [InitPriority_new_eq s.pdc hpl]
              simp
            have hf : (newPriorityMetadata p s.pdc).curops ≠ (newPriorityMetadata p s.pdc).maxops := by
              have := getMaxops_ne_zero s.pdc
              simp [newPriorityMetadata]
              omega
            have hm1 : ¬ (InitPriority s p s.pdc).maxops ≤ (InitPriority s p s.pdc).curops := by
              rw [hfields.1, hfields.2.1]
              exact hm
            exact (Inv_enqueue o hInv1 hpl1 hf hm1).1
    | some pm =>
        by_cases hf : pm.curops = pm.maxops
        · rw [Add_queue_full p o hm hpl hf]; exact hInv
        · rw [Add_success_existing p o hm hpl hf]
          exact (Inv_enqueue o hInv hpl hf hm).1



/-! ### The scan loop and repeated dequeueing -/

theorem catMap_eq_nil {f : Int → List Nat} :
    ∀ {l : List Int}, catMap f l = [] ↔ ∀ q ∈ l, f q = [] := by
  intro l
  induction l with
  | nil => simp [catMap]
  | cons x xs ih =>
      unfold catMap
      rw [List.append_eq_nil, ih]
      constructor
      · rintro ⟨h1, h2⟩ q hq
        rcases List.mem_cons.mp hq with h3 | h3
        · rw [h3]; exact h1
        · exact h2 q h3
      · intro h
        exact ⟨h x (by simp), fun q hq => h q (by simp [hq])⟩

theorem getNextOpAux_empty :
    ∀ (l : List Int) (s : Scheduler),
      (∀ q ∈ l, ∀ pm, s.pl q = some pm → pmInv pm) →
      (∀ q ∈ l, pmOpsAt s q = []) →
      getNextOpAux s l = (s, none, []) := by
  intro l
  induction l with
  | nil => intro s _ _; rfl
  | cons q rest ih =>
      intro s hinv hemp
      simp only [getNextOpAux]
      cases hpl : s.pl q with
      | none =>
          exact ih s (fun r hr pm h => hinv r (by simp [hr]) pm h)
            (fun r hr => hemp r (by simp [hr]))
      | some pm =>
          have hpi : pmInv pm := hinv q (by simp) pm hpl
          have he : pmOps pm = [] := by
            have h2 := hemp q (by simp)
            unfold pmOpsAt at h2
            rw [hpl] at h2
            exact h2
          have hlf : pm.last = pm.first := (pmOps_eq_nil_iff hpi).mp he
          simp only []
          rw [GetOperation_empty hlf]
          simp only [Bool.false_eq_true, if_false]
          exact ih s (fun r hr pm1 h => hinv r (by simp [hr]) pm1 h)
            (fun r hr => hemp r (by simp [hr]))

theorem getNextOpAux_found :
    ∀ (l : List Int) (s : Scheduler),
      (∀ q ∈ l, ∀ pm, s.pl q = some pm → pmInv pm ∧ pm.curops < 2 ^ 32) →
      l.Nodup →
      catMap (pmOpsAt s) l ≠ [] →
      ∃ (q : Int) (pm : priorityMetadata) (s1 : Scheduler) (o : Nat),
        q ∈ l ∧ s.pl q = some pm ∧
        getNextOpAux s l = (s1, some o, (GetOperation pm).events) ∧
        s1.pl = (fun j => if j = q then some (GetOperation pm).pm else s.pl j) ∧
        s1.opl = s.opl ∧ s1.curops = dec32 s.curops ∧ s1.maxops = s.maxops ∧
        s1.usingWorkers = s.usingWorkers ∧ s1.opqueue = s.opqueue ∧
        s1.pai = s.pai ∧ s1.pdc = s.pdc ∧
        pmOps pm = o :: pmOps (GetOperation pm).pm ∧
        pmInv (GetOperation pm).pm ∧
        (GetOperation pm).pm.curops + 1 = pm.curops ∧
        (GetOperation pm).pm.priority = pm.priority ∧
        o :: catMap (pmOpsAt s1) l = catMap (pmOpsAt s) l := by
  intro l
  induction l with
  | nil => intro s _ _ hne; exact absurd rfl hne
  | cons q rest ih =>
      intro s hinv hnd hne
      rw [List.nodup_cons] at hnd
      by_cases hq0 : pmOpsAt s q = []
      · -- this queue yields nothing; the hit is further down
        have hne2 : catMap (pmOpsAt s) rest ≠ [] := by
          intro h
          apply hne
          unfold catMap
          rw [hq0, h]
          rfl
        obtain ⟨q1, pm1, s1, o, hmem1, hpl1, haux, hplf, hopl, hcur, hmax2, hw, hoq, hpai2, hpdc2,
          hhead, hpminv1, hcount, hprio, hcat⟩ :=
          ih s (fun r hr pm h => hinv r (by simp [hr]) pm h) hnd.2 hne2
        have hq1q : q1 ≠ q := fun he => hnd.1 (he ▸ hmem1)
        have hs1q : s1.pl q = s.pl q := by
          rw [hplf]
          simp [Ne.symm hq1q]
        refine ⟨q1, pm1, s1, o, by simp [hmem1], hpl1, ?_, hplf, hopl, hcur, hmax2, hw, hoq,
          hpai2, hpdc2, hhead, hpminv1, hcount, hprio, ?_⟩
        · simp only [getNextOpAux]
          cases hpl : s.pl q with
          | none => exact haux
          | some pm =>
              have hpi : pmInv pm := (hinv q (by simp) pm hpl).1
              have he : pmOps pm = [] := by
                unfold pmOpsAt at hq0
                rw [hpl] at hq0
                exact hq0
              have hlf : pm.last = pm.first := (pmOps_eq_nil_iff hpi).mp he
              simp only []
              rw [GetOperation_empty hlf]
              simp only [Bool.false_eq_true, if_false]
              exact haux
        · unfold catMap
          have hq0s1 : pmOpsAt s1 q = [] := by
            unfold pmOpsAt at hq0 ⊢
            rw [hs1q]
            exact hq0
          rw [hq0, hq0s1]
          simp only [List.nil_append]
          exact hcat
      · -- the first nonempty queue: the scan stops here
        cases hpl : s.pl q with
        | none =>
            exfalso
            apply hq0
            unfold pmOpsAt
            rw [hpl]
        | some pm =>
            have hpi := hinv q (by simp) pm hpl
            have hlf : pm.last ≠ pm.first := by
              intro hlf2
              apply hq0
              unfold pmOpsAt
              rw [hpl]
              exact (pmOps_eq_nil_iff hpi.1).mpr hlf2
            obtain ⟨o, hoget, hop, hhead, hpminv1, hcount, hprio, hok⟩ :=
              GetOperation_head hpi.1 hpi.2 hlf
            refine ⟨q, pm,
              { s with
                  pl := fun j => if j = q then some (GetOperation pm).pm else s.pl j
                  curops := dec32 s.curops }, o, by simp, hpl, ?_, rfl, rfl, rfl, rfl, rfl, rfl,
              rfl, rfl, hhead, hpminv1, hcount, hprio, ?_⟩
            · simp only [getNextOpAux]
              rw [hpl]
              simp only []
              rw [hok]
              simp only [eq_self_iff_true, if_true]
              rw [hop]
            · unfold catMap
              have hcq : pmOpsAt
                  { s with
                      pl := fun j => if j = q then some (GetOperation pm).pm else s.pl j
                      curops := dec32 s.curops } q = pmOps (GetOperation pm).pm := by
                unfold pmOpsAt
                simp
              have hcrest : catMap (pmOpsAt
                  { s with
                      pl := fun j => if j = q then some (GetOperation pm).pm else s.pl j
                      curops := dec32 s.curops }) rest = catMap (pmOpsAt s) rest := by
                apply catMap_congr
                intro r hr
                have hrq : r ≠ q := fun he => hnd.1 (he ▸ hr)
                unfold pmOpsAt
                simp [hrq]
              rw [hcq, hcrest]
              unfold pmOpsAt
              rw [hpl]
              simp only []
              rw [hhead]
              rfl



theorem Inv_queue_bounds {s : Scheduler} (hInv : Inv s) :
    ∀ q ∈ s.opl, ∀ pm, s.pl q = some pm → pmInv pm ∧ pm.curops < 2 ^ 32 := by
  obtain ⟨hmax, hcm, hsum, hpw, hq, hmem⟩ := hInv
  intro q hq2 pm hpl
  refine ⟨(queue_facts hq hq2 hpl).2, ?_⟩
  have h1 : pm.curops ≤ sumCurops s := curops_le_sum hq2 hpl
  omega

theorem getNextOp_none {s : Scheduler} (hInv : Inv s)
    (hemp : catMap (pmOpsAt s) s.opl = []) :
    getNextOp s = (s, none, []) := by
  unfold getNextOp
  apply getNextOpAux_empty
  · intro q hq2 pm hpl
    exact (Inv_queue_bounds hInv q hq2 pm hpl).1
  · exact catMap_eq_nil.mp hemp

theorem getNextOp_step {s : Scheduler} (hInv : Inv s)
    (hne : catMap (pmOpsAt s) s.opl ≠ []) :
    ∃ (s1 : Scheduler) (o : Nat) (ev : List Int),
      getNextOp s = (s1, some o, ev) ∧ Inv s1 ∧ s1.opl = s.opl ∧
      s1.curops + 1 = s.curops ∧
      o :: catMap (pmOpsAt s1) s1.opl = catMap (pmOpsAt s) s.opl := by
  have hInv0 := hInv
  obtain ⟨hmax, hcm, hsum, hpw, hq, hmem⟩ := hInv
  obtain ⟨q, pm, s1, o, hmemq, hpl, haux, hplf, hopl, hcur, hmax2, hw, hoq, hpai2, hpdc2,
    hhead, hpminv1, hcount, hprio, hcat⟩ :=
    getNextOpAux_found s.opl s
      (fun q hq2 pm hpl => Inv_queue_bounds hInv0 q hq2 pm hpl) hpw.nodup hne
  have hple : pm.curops ≤ s.curops := by
    rw [hsum]
    exact curops_le_sum hmemq hpl
  have hpm1 : pm.curops ≥ 1 := by omega
  have hcurge : s.curops ≥ 1 := by omega
  have hclt : s.curops < 2 ^ 32 := by omega
  have hdec : dec32 s.curops = s.curops - 1 := dec32_eq_pred hcurge hclt
  have hpprio : pm.priority = q := (queue_facts hq hmemq hpl).1
  have hsum1 : sumCurops s1 + pm.curops = sumCurops s + (GetOperation pm).pm.curops := by
    unfold sumCurops
    rw [hopl]
    have hfun : ∀ r ∈ s.opl,
        (match s1.pl r with | some x => x.curops | none => 0)
          = (fun x => if x = q then (GetOperation pm).pm.curops
              else (match s.pl x with | some y => y.curops | none => 0)) r := by
      intro r _
      rw [hplf]
      by_cases hr : r = q <;> simp [hr]
    rw [List.map_congr_left hfun]
    have hs := sum_map_update s.opl q
      (fun x => match s.pl x with | some y => y.curops | none => 0)
      ((GetOperation pm).pm.curops) hpw.nodup hmemq
    have hc0 : (match s.pl q with | some y => y.curops | none => 0) = pm.curops := by
      rw [hpl]
    simp only at hs
    omega
  refine ⟨s1, o, (GetOperation pm).events, haux, ?_, hopl, by omega, ?_⟩
  · refine ⟨by rw [hmax2]; exact hmax, ?_, ?_, by rw [hopl]; exact hpw, ?_, ?_⟩
    · rw [hcur, hdec, hmax2]
      omega
    · rw [hcur, hdec]
      omega
    · intro r hr2
      rw [hopl] at hr2
      by_cases hrq : r = q
      · subst hrq
        refine ⟨(GetOperation pm).pm, ?_, ?_, hpminv1⟩
        · rw [hplf]
          simp
        · rw [hprio]
          exact hpprio
      · obtain ⟨pm0, h1, h2, h3⟩ := hq r hr2
        refine ⟨pm0, ?_, h2, h3⟩
        rw [hplf]
        simp [hrq, h1]
    · intro p1 pm1 h1
      rw [hplf] at h1
      rw [hopl]
      by_cases hp1 : p1 = q
      · subst hp1; exact hmemq
      · simp only [hp1, if_false] at h1
        exact hmem p1 pm1 h1
  · rw [hopl]
    exact hcat

theorem Inv_getNextOp {s : Scheduler} (hInv : Inv s) : Inv (getNextOp s).1 := by
  by_cases hemp : catMap (pmOpsAt s) s.opl = []
  · rw [getNextOp_none hInv hemp]
    exact hInv
  · obtain ⟨s1, o, ev, heq, hInv1, _, _, _⟩ := getNextOp_step hInv hemp
    rw [heq]
    exact hInv1

theorem drain_spec : ∀ (n : Nat) (s : Scheduler), Inv s →
    (catMap (pmOpsAt s) s.opl).length ≤ n →
    drain s n = catMap (pmOpsAt s) s.opl := by
  intro n
  induction n with
  | zero =>
      intro s hInv hle
      have hnil : catMap (pmOpsAt s) s.opl = [] := by
        cases h : catMap (pmOpsAt s) s.opl with
        | nil => rfl
        | cons a l => rw [h] at hle; simp at hle
      rw [hnil]
      rfl
  | succ m ih =>
      intro s hInv hle
      by_cases hemp : catMap (pmOpsAt s) s.opl = []
      · rw [hemp]
        simp only [drain]
        rw [getNextOp_none hInv hemp]
      · obtain ⟨s1, o, ev, heq, hInv1, hopl, hcnt, hcat⟩ := getNextOp_step hInv hemp
        simp only [drain]
        rw [heq]
        simp only []
        rw [← hcat]
        congr 1
        apply ih s1 hInv1
        have hlen := congrArg List.length hcat
        simp only [List.length_cons] at hlen
        omega



/-! ### Histories of `InitPriority` and `Add` calls -/

theorem opsOf_append (acc : List (Int × Nat)) (p : Int) (o : Nat) (q : Int) :
    opsOf (acc ++ [(p, o)]) q = opsOf acc q ++ (if q = p then [o] else []) := by
  unfold opsOf
  rw [List.filter_append, List.map_append]
  congr 1
  by_cases hq : q = p
  · subst hq
    simp
  · have hne : (p == q) = false := by
      simp [beq_iff_eq]
      exact fun he => hq he.symm
    simp [List.filter_cons, hne]
    exact hq

theorem opsOf_ne_nil {acc : List (Int × Nat)} {q : Int} :
    opsOf acc q ≠ [] ↔ ∃ x ∈ acc, x.1 = q := by
  unfold opsOf
  constructor
  · intro h
    cases hf : acc.filter (fun x => x.1 == q) with
    | nil => rw [hf] at h; exact absurd rfl h
    | cons a l =>
        have ha : a ∈ acc.filter (fun x => x.1 == q) := by rw [hf]; simp
        have h2 := List.mem_filter.mp ha
        exact ⟨a, h2.1, by simpa [beq_iff_eq] using h2.2⟩
  · rintro ⟨x, hx, he⟩ h
    have hmem : x ∈ acc.filter (fun y => y.1 == q) :=
      List.mem_filter.mpr ⟨hx, by simp [beq_iff_eq, he]⟩
    rw [List.map_eq_nil_iff] at h
    rw [h] at hmem
    cases hmem

theorem Add_error_unchanged (s : Scheduler) (p : Int) (o : Nat) (e : SchedErr)
    (h : (Add s p o).2 = some e) : (Add s p o).1 = s := by
  by_cases hm : s.maxops ≤ s.curops
  · rw [Add_maxed p o hm]
  · cases hpl : s.pl p with
    | none =>
        cases hpai : s.pai with
        | false => rw [Add_noqueue p o hm hpl hpai]
        | true =>
            rw [Add_success_auto p o hm hpl hpai] at h
            simp at h
    | some pm =>
        by_cases hf : pm.curops = pm.maxops
        · rw [Add_queue_full p o hm hpl hf]
        · rw [Add_success_existing p o hm hpl hf] at h
          simp at h

theorem GoodState_initp {s : Scheduler} {acc : List (Int × Nat)}
    (hG : GoodState s acc) (p cap : Int) :
    GoodState (InitPriority s p cap) acc := by
  obtain ⟨hInv, hops, hmem2, hcnt⟩ := hG
  have hInv1 := Inv_InitPriority hInv p cap
  cases hpl : s.pl p with
  | some pr =>
      rw [InitPriority_existing cap hpl] at hInv1 ⊢
      refine ⟨hInv1, ?_, hmem2, hcnt⟩
      intro q hq2
      have hbase := hops q hq2
      unfold pmOpsAt at hbase ⊢
      simp only
      by_cases hqp : q = p
      · subst hqp
        rw [hpl] at hbase
        simp only [if_pos rfl]
        exact hbase
      · simp only [hqp, if_false]
        exact hbase
  | none =>
      have hnotin : p ∉ s.opl := not_mem_opl hInv hpl
      rw [InitPriority_new_eq cap hpl] at hInv1 ⊢
      have hLmem : ∀ q, q ∈ oplLoop p (s.opl ++ [p]) ((s.opl ++ [p]).length - 1)
          ↔ (q = p ∨ q ∈ s.opl) := by
        intro q
        obtain ⟨_, _, _, hpw0, _, _⟩ := hInv
        have hper : (oplLoop p (s.opl ++ [p]) ((s.opl ++ [p]).length - 1)).Perm (p :: s.opl) := by
          rw [oplLoop_new p s.opl hpw0]
          exact perm_insert p s.opl
        rw [hper.mem_iff, List.mem_cons]
      refine ⟨hInv1, ?_, ?_, hcnt⟩
      · intro q hq2
        rw [hLmem q] at hq2
        unfold pmOpsAt
        simp only
        by_cases hqp : q = p
        · subst hqp
          simp only [if_pos rfl]
          have hopn : opsOf acc q = [] := by
            by_cases hn : opsOf acc q = []
            · exact hn
            · obtain ⟨x, hx, he⟩ := opsOf_ne_nil.mp hn
              exact absurd (he ▸ hmem2 x hx) hnotin
          rw [hopn]
          rfl
        · rcases hq2 with h1 | h1
          · exact absurd h1 hqp
          · simp only [hqp, if_false]
            have hbase := hops q h1
            unfold pmOpsAt at hbase
            exact hbase
      · intro x hx
        rw [hLmem x.1]
        exact Or.inr (hmem2 x hx)

theorem GoodState_enqueue {s : Scheduler} {acc : List (Int × Nat)} {p : Int}
    {pm : priorityMetadata} (o : Nat) (hG : GoodState s acc) (hpl : s.pl p = some pm)
    (hf : pm.curops ≠ pm.maxops) (hm : ¬ s.maxops ≤ s.curops) :
    GoodState { s with
        pl := fun q => if q = p then some (AddOperation pm o).1 else s.pl q
        curops := inc32 s.curops } (acc ++ [(p, o)]) := by
  obtain ⟨hInv, hops, hmem2, hcnt⟩ := hG
  obtain ⟨hInvE, hinc⟩ := Inv_enqueue o hInv hpl hf hm
  have hpopl : p ∈ s.opl := hInv.2.2.2.2.2 p pm hpl
  have hfl : pm.first ≤ pm.last :=
    ((Inv_queue_bounds hInv p hpopl pm hpl).1).1
  refine ⟨hInvE, ?_, ?_, ?_⟩
  · intro q hq2
    rw [opsOf_append]
    unfold pmOpsAt
    simp only
    by_cases hqp : q = p
    · subst hqp
      rw [if_pos rfl, if_pos rfl]
      show pmOps (AddOperation pm o).1 = _
      rw [pmOps_AddOperation o hfl hf]
      have hbase := hops q hq2
      unfold pmOpsAt at hbase
      rw [hpl] at hbase
      have hbase2 : pmOps pm = opsOf acc q := hbase
      rw [hbase2]
    · simp only [hqp, if_false]
      have hbase := hops q hq2
      unfold pmOpsAt at hbase
      rw [hbase, List.append_nil]
  · intro x hx
    rcases List.mem_append.mp hx with h1 | h1
    · exact hmem2 x h1
    · have : x = (p, o) := by simpa using h1
      rw [this]
      exact hpopl
  · simp only [hinc, List.length_append, List.length_cons, List.length_nil]
    omega

theorem GoodState_add_success {s : Scheduler} {acc : List (Int × Nat)}
    (hG : GoodState s acc) (p : Int) (o : Nat) (h : (Add s p o).2 = none) :
    GoodState (Add s p o).1 (acc ++ [(p, o)]) := by
  by_cases hm : s.maxops ≤ s.curops
  · rw [Add_maxed p o hm] at h
    simp at h
  · cases hpl : s.pl p with
    | none =>
        cases hpai : s.pai with
        | false =>
            rw [Add_noqueue p o hm hpl hpai] at h
            simp at h
        | true =>
            rw [Add_success_auto p o hm hpl hpai]
            have hG1 : GoodState (InitPriority s p s.pdc) acc := GoodState_initp hG p s.pdc
            have hpl1 : (InitPriority s p s.pdc).pl p = some (newPriorityMetadata p s.pdc) := by
              rw [InitPriority_new_eq s.pdc hpl]
              simp
            have hf : (newPriorityMetadata p s.pdc).curops
                ≠ (newPriorityMetadata p s.pdc).maxops := by
              have := getMaxops_ne_zero s.pdc
              simp [newPriorityMetadata]
              omega
            have hfields := InitPriority_fields s p s.pdc
            have hm1 : ¬ (InitPriority s p s.pdc).maxops ≤ (InitPriority s p s.pdc).curops := by
              rw [hfields.1, hfields.2.1]
              exact hm
            exact GoodState_enqueue o hG1 hpl1 hf hm1
    | some pm =>
        by_cases hf : pm.curops = pm.maxops
        · rw [Add_queue_full p o hm hpl hf] at h
          simp at h
        · rw [Add_success_existing p o hm hpl hf]
          exact GoodState_enqueue o hG hpl hf hm



theorem run_spec : ∀ (cmds : List Cmd) (s : Scheduler) (acc : List (Int × Nat)),
    GoodState s acc →
    GoodState (run s cmds).1 (acc ++ (run s cmds).2) ∧
    (run s cmds).2.length ≤ cmds.length := by
  intro cmds
  induction cmds with
  | nil =>
      intro s acc hG
      simp only [run]
      rw [List.append_nil]
      exact ⟨hG, by simp⟩
  | cons c rest ih =>
      intro s acc hG
      cases c with
      | initp p cap =>
          simp only [run]
          obtain ⟨h1, h2⟩ := ih (InitPriority s p cap) acc (GoodState_initp hG p cap)
          refine ⟨h1, ?_⟩
          simp only [List.length_cons]
          omega
      | add p o =>
          simp only [run]
          rcases hAdd : Add s p o with ⟨s1, e⟩
          cases e with
          | none =>
              simp only []
              have hG1 : GoodState s1 (acc ++ [(p, o)]) := by
                have h2 := GoodState_add_success hG p o (by rw [hAdd])
                rw [hAdd] at h2
                exact h2
              obtain ⟨h1, h2⟩ := ih s1 (acc ++ [(p, o)]) hG1
              constructor
              · have hassoc : acc ++ (p, o) :: (run s1 rest).2
                    = (acc ++ [(p, o)]) ++ (run s1 rest).2 := by
                  rw [List.append_assoc]
                  rfl
                rw [hassoc]
                exact h1
              · simp only [List.length_cons]
                omega
          | some e2 =>
              simp only []
              have hs1 : s1 = s := by
                have h3 := Add_error_unchanged s p o e2 (by rw [hAdd])
                rw [hAdd] at h3
                exact h3
              subst hs1
              obtain ⟨h1, h2⟩ := ih s1 acc hG
              refine ⟨h1, ?_⟩
              simp only [List.length_cons]
              omega

theorem catMap_cons (f : Int → List Nat) (q : Int) (l : List Int) :
    catMap f (q :: l) = f q ++ catMap f l := rfl

theorem catMap_support_eq (E : Int → List Nat) :
    ∀ (l L : List Int), List.Pairwise (· < ·) l → List.Pairwise (· < ·) L →
      (∀ p, p ∈ L ↔ (E p ≠ [] ∧ p ∈ l)) →
      catMap E l = catMap E L := by
  intro l
  induction l with
  | nil =>
      intro L _ _ hm
      cases L with
      | nil => rfl
      | cons a L1 =>
          have := (hm a).mp (by simp)
          simp at this
  | cons x xs ih =>
      intro L hpl hpL hm
      rw [List.pairwise_cons] at hpl
      by_cases hx : E x = []
      · rw [catMap_cons, hx, List.nil_append]
        apply ih L hpl.2 hpL
        intro p
        rw [hm p]
        constructor
        · rintro ⟨h1, h2⟩
          rcases List.mem_cons.mp h2 with h3 | h3
          · exact absurd (h3 ▸ h1) (by rw [hx]; exact fun h => h rfl)
          · exact ⟨h1, h3⟩
        · rintro ⟨h1, h2⟩
          exact ⟨h1, by simp [h2]⟩
      · have hxL : x ∈ L := (hm x).mpr ⟨hx, by simp⟩
        cases L with
        | nil => cases hxL
        | cons a L1 =>
            rw [List.pairwise_cons] at hpL
            have hax : a = x := by
              by_contra hne
              have haE := (hm a).mp (by simp)
              rcases List.mem_cons.mp haE.2 with h3 | h3
              · exact hne h3
              · have h4 : x < a := hpl.1 a h3
                rcases List.mem_cons.mp hxL with h5 | h5
                · exact hne h5.symm
                · have h6 : a < x := hpL.1 x h5
                  omega
            subst hax
            rw [catMap_cons, catMap_cons]
            congr 1
            apply ih L1 hpl.2 hpL.2
            intro p
            constructor
            · intro hpL1
              have hpa : a < p := hpL.1 p hpL1
              have h2 := (hm p).mp (by simp [hpL1])
              rcases List.mem_cons.mp h2.2 with h3 | h3
              · omega
              · exact ⟨h2.1, h3⟩
            · rintro ⟨h1, h2⟩
              have hap : a < p := hpl.1 p h2
              have h3 := (hm p).mpr ⟨h1, by simp [h2]⟩
              rcases List.mem_cons.mp h3 with h4 | h4
              · omega
              · exact h4



theorem catMap_pmOpsAt_length {s : Scheduler} (hInv : Inv s) :
    (catMap (pmOpsAt s) s.opl).length = sumCurops s := by
  rw [catMap_length]
  unfold sumCurops
  congr 1
  apply List.map_congr_left
  intro q hq2
  obtain ⟨_, _, _, _, hq, _⟩ := hInv
  obtain ⟨pm, h1, _, h3⟩ := hq q hq2
  unfold pmOpsAt
  rw [h1]
  simp only []
  rw [pmOps_length h3]

/-! ### The claims -/

/-- Claim C1: for every sequence of successful `Add` calls (interleaved
with `InitPriority` calls) starting from `New`, followed by dequeues,
`getNextOp` yields the operations ordered first by ascending numeric
priority value and, within one priority level, in the order the
operations were added (FIFO); a unit of a numerically larger priority
value is never returned while a unit of a smaller value is pending.
`L` is any strictly ascending enumeration of the priorities of the
successful adds, and draining the final state releases exactly the
successful adds grouped by ascending priority, each group in call
order. -/
theorem C1_priority_fifo_order (c : Config) (cmds : List Cmd) (L : List Int)
    (hL : List.Pairwise (· < ·) L)
    (hL1 : ∀ x ∈ (run (New c) cmds).2, x.1 ∈ L)
    (hL2 : ∀ p ∈ L, ∃ x ∈ (run (New c) cmds).2, x.1 = p) :
    drain (run (New c) cmds).1 cmds.length
      = catMap (opsOf (run (New c) cmds).2) L := by
  have hG0 : GoodState (New c) [] := by
    refine ⟨Inv_New c, ?_, ?_, rfl⟩
    · intro q hq
      cases hq
    · intro x hx
      cases hx
  obtain ⟨hG, hlen⟩ := run_spec cmds (New c) [] hG0
  rw [List.nil_append] at hG
  obtain ⟨hInv, hops, hmem2, hcnt⟩ := hG
  have hfuel : (catMap (pmOpsAt (run (New c) cmds).1) (run (New c) cmds).1.opl).length
      ≤ cmds.length := by
    rw [catMap_pmOpsAt_length hInv]
    have hsum := hInv.2.2.1
    omega
  rw [drain_spec cmds.length (run (New c) cmds).1 hInv hfuel]
  rw [catMap_congr (run (New c) cmds).1.opl hops]
  apply catMap_support_eq
  · exact hInv.2.2.2.1
  · exact hL
  · intro p
    constructor
    · intro hpL
      obtain ⟨x, hx, he⟩ := hL2 p hpL
      refine ⟨opsOf_ne_nil.mpr ⟨x, hx, he⟩, ?_⟩
      rw [← he]
      exact hmem2 x hx
    · rintro ⟨h1, _⟩
      obtain ⟨x, hx, he⟩ := opsOf_ne_nil.mp h1
      rw [← he]
      exact hL1 x hx

/-- Witness for C1: the worked example of the specification — priorities
5 and 10 with capacity 1, global capacity 2: `Add(10,1001)` and
`Add(5,1002)` succeed, `Add(5,1003)` and `Add(1,1004)` are rejected, and
the drain releases `1002` (priority 5) before `1001` (priority 10). -/
theorem C1_priority_fifo_order_witness :
    drain (run (New { MaxQueueSize := 2 })
        [Cmd.initp 5 1, Cmd.initp 10 1, Cmd.add 10 1001, Cmd.add 5 1002,
         Cmd.add 5 1003, Cmd.add 1 1004]).1
      [Cmd.initp 5 1, Cmd.initp 10 1, Cmd.add 10 1001, Cmd.add 5 1002,
         Cmd.add 5 1003, Cmd.add 1 1004].length
      = catMap (opsOf (run (New { MaxQueueSize := 2 })
        [Cmd.initp 5 1, Cmd.initp 10 1, Cmd.add 10 1001, Cmd.add 5 1002,
         Cmd.add 5 1003, Cmd.add 1 1004]).2) [5, 10] :=
  C1_priority_fifo_order { MaxQueueSize := 2 }
    [Cmd.initp 5 1, Cmd.initp 10 1, Cmd.add 10 1001, Cmd.add 5 1002,
     Cmd.add 5 1003, Cmd.add 1 1004]
    [5, 10] (by decide) (by decide) (by decide)



/-- Claim C2: `Add(p, o)` returns `ErrMaxCapacity` whenever the global
pending count has reached the global maximum, even if priority `p`'s own
queue has room (no condition on `p` or its queue is required); the
priority-existence check and the per-level capacity check run only after
the global check passes; and on success the global pending count is
incremented by one. -/
theorem C2_add_checks_order (s : Scheduler) (p : Int) (o : Nat)
    (hmax : s.maxops < 2 ^ 32) :
    (s.curops ≥ s.maxops → Add s p o = (s, some SchedErr.ErrMaxCapacity)) ∧
    (s.curops < s.maxops → s.pl p = none → s.pai = false →
      Add s p o = (s, some SchedErr.ErrInvalidPriority)) ∧
    (∀ pm, s.curops < s.maxops → s.pl p = some pm → pm.curops = pm.maxops →
      Add s p o = (s, some SchedErr.ErrPriorityCapacity)) ∧
    ((Add s p o).2 = none → (Add s p o).1.curops = s.curops + 1) := by
  refine ⟨?_, ?_, ?_, ?_⟩
  · intro h
    exact Add_maxed p o h
  · intro h1 h2 h3
    exact Add_noqueue p o (by omega) h2 h3
  · intro pm h1 h2 h3
    exact Add_queue_full p o (by omega) h2 h3
  · intro hnone
    by_cases hm : s.maxops ≤ s.curops
    · rw [Add_maxed p o hm] at hnone
      simp at hnone
    · have hlt : s.curops + 1 < 2 ^ 32 := by omega
      cases hpl : s.pl p with
      | none =>
          cases hpai : s.pai with
          | false =>
              rw [Add_noqueue p o hm hpl hpai] at hnone
              simp at hnone
          | true =>
              rw [Add_success_auto p o hm hpl hpai]
              simp only
              rw [(InitPriority_fields s p s.pdc).1]
              exact inc32_eq_succ hlt
      | some pm =>
          by_cases hf : pm.curops = pm.maxops
          · rw [Add_queue_full p o hm hpl hf] at hnone
            simp at hnone
          · rw [Add_success_existing p o hm hpl hf]
            simp only
            exact inc32_eq_succ hlt

/-- Witness for C2: a scheduler whose global counter has reached its
maximum rejects an `Add` with `ErrMaxCapacity` without touching state. -/
theorem C2_add_checks_order_witness :
    Add { usingWorkers := false, opqueue := none, pai := true, pdc := 4
          , pl := fun _ => none, opl := [], curops := 3, maxops := 3 } 1 0
      = ({ usingWorkers := false, opqueue := none, pai := true, pdc := 4
           , pl := fun _ => none, opl := [], curops := 3, maxops := 3 }, some SchedErr.ErrMaxCapacity) :=
  (C2_add_checks_order
    { usingWorkers := false, opqueue := none, pai := true, pdc := 4
      , pl := fun _ => none, opl := [], curops := 3, maxops := 3 } 1 0 (by decide)).1 (by decide)

/-- Claim C3, counterexample: with auto-initialization enabled and
priority `7` uninitialized, `SetMinimumCallback` does not return
`ErrInvalidPriority`; it auto-initializes the priority and succeeds.
The claim states it should fail regardless of auto-initialization. -/
theorem C3_counterexample :
    (SetMinimumCallback
      { usingWorkers := false, opqueue := none, pai := true, pdc := 0
        , pl := fun _ => none, opl := [], curops := 0, maxops := 5 } 7 5).2.1 = none ∧
    ((SetMinimumCallback
      { usingWorkers := false, opqueue := none, pai := true, pdc := 0
        , pl := fun _ => none, opl := [], curops := 0, maxops := 5 } 7 5).1.pl 7).isSome = true := by
  constructor
  · rfl
  · rfl

/-- Claim C3 as amended: `SetMinimumCallback(p, minimum, cb)` returns
`ErrInvalidPriority` exactly when priority `p` has no queue AND
auto-initialization is disabled; with auto-initialization enabled it
auto-initializes `p` (with the default capacity) and succeeds, exactly
as `Add` does — it is not a pure query against existing state. -/
theorem C3_amended (s : Scheduler) (p : Int) (m : Int) :
    (s.pl p = none → s.pai = false →
      SetMinimumCallback s p m = (s, some SchedErr.ErrInvalidPriority, [])) ∧
    (s.pl p = none → s.pai = true →
      (SetMinimumCallback s p m).2.1 = none ∧
      ((SetMinimumCallback s p m).1.pl p).isSome = true) ∧
    (∀ pm, s.pl p = some pm → (SetMinimumCallback s p m).2.1 = none) := by
  refine ⟨?_, ?_, ?_⟩
  · intro h1 h2
    exact SetMinimumCallback_noauto p m h1 h2
  · intro h1 h2
    rw [SetMinimumCallback_auto p m h1 h2]
    refine ⟨rfl, ?_⟩
    simp
  · intro pm h1
    rw [SetMinimumCallback_some p m h1]

/-- Witness for C3's amended claim: with auto-initialization disabled,
registering a callback on an uninitialized priority fails. -/
theorem C3_amended_witness :
    SetMinimumCallback
      { usingWorkers := false, opqueue := none, pai := false, pdc := 0
        , pl := fun _ => none, opl := [], curops := 0, maxops := 5 } 7 5
      = ({ usingWorkers := false, opqueue := none, pai := false, pdc := 0
           , pl := fun _ => none, opl := [], curops := 0, maxops := 5 },
         some SchedErr.ErrInvalidPriority, []) :=
  (C3_amended
    { usingWorkers := false, opqueue := none, pai := false, pdc := 0
      , pl := fun _ => none, opl := [], curops := 0, maxops := 5 } 7 5).1 rfl rfl

/-- Claim C4, counterexample: a queue holding 3 units with threshold 5
and a registered callback: the dequeue succeeds and brings the count to
2, which is at or below the threshold, yet no callback is invoked
(the code fires only when the new count equals the threshold). -/
theorem C4_counterexample :
    (GetOperation
      { priority := 9, oplist := fun j => if 0 ≤ j ∧ j < 3 then some j.toNat else none
        , maxops := 10, curops := 3, first := 0, last := 3, Minimum := 5
        , hasCallback := true }).ok = true ∧
    (GetOperation
      { priority := 9, oplist := fun j => if 0 ≤ j ∧ j < 3 then some j.toNat else none
        , maxops := 10, curops := 3, first := 0, last := 3, Minimum := 5
        , hasCallback := true }).pm.curops ≤ (5 : Nat) ∧
    (GetOperation
      { priority := 9, oplist := fun j => if 0 ≤ j ∧ j < 3 then some j.toNat else none
        , maxops := 10, curops := 3, first := 0, last := 3, Minimum := 5
        , hasCallback := true }).events = [] := by
  refine ⟨rfl, by decide, rfl⟩

/-- Claim C4 as amended: the threshold callback fires synchronously at
registration when the current count is at or below the threshold, and
afterwards fires on a dequeue exactly when the new count equals the
threshold (never on enqueue — the enqueue path contains no callback
call — and never when the new count is strictly below the threshold),
with the queue's priority as argument. -/
theorem C4_amended (pm : priorityMetadata) (h1 : pm.first ≤ pm.last)
    (h2 : pm.curops = (pm.last - pm.first).toNat) (h3 : pm.curops < 2 ^ 32) :
    (pm.last = pm.first → (GetOperation pm).events = []) ∧
    (pm.last ≠ pm.first →
      (GetOperation pm).ok = true ∧
      (GetOperation pm).pm.curops = pm.curops - 1 ∧
      (GetOperation pm).events
        = (if pm.curops - 1 = pm.Minimum ∧ pm.hasCallback = true
           then [pm.priority] else [])) ∧
    (∀ (s : Scheduler) (p : Int) (m : Int) (pm1 : priorityMetadata),
      s.pl p = some pm1 →
      (SetMinimumCallback s p m).2.2
        = (if pm1.curops ≤ toUint32 m then [pm1.priority] else [])) := by
  refine ⟨?_, ?_, ?_⟩
  · intro he
    rw [GetOperation_empty he]
  · intro hne
    have hge : 1 ≤ pm.curops := by omega
    have hdec : dec32 pm.curops = pm.curops - 1 := dec32_eq_pred hge h3
    rw [GetOperation_some hne]
    exact ⟨rfl, hdec, by rw [hdec]⟩
  · intro s p m pm1 hpl
    rw [SetMinimumCallback_some p m hpl]

/-- Witness for C4's amended claim: dequeueing a two-element queue with
threshold 1 fires the callback with the queue's priority. -/
theorem C4_amended_witness :
    (GetOperation
      { priority := 4, oplist := fun j => if 0 ≤ j ∧ j < 2 then some j.toNat else none
        , maxops := 8, curops := 2, first := 0, last := 2, Minimum := 1
        , hasCallback := true }).ok = true ∧
    (GetOperation
      { priority := 4, oplist := fun j => if 0 ≤ j ∧ j < 2 then some j.toNat else none
        , maxops := 8, curops := 2, first := 0, last := 2, Minimum := 1
        , hasCallback := true }).pm.curops = 2 - 1 ∧
    (GetOperation
      { priority := 4, oplist := fun j => if 0 ≤ j ∧ j < 2 then some j.toNat else none
        , maxops := 8, curops := 2, first := 0, last := 2, Minimum := 1
        , hasCallback := true }).events
      = (if 2 - 1 = 1 ∧ true = true then [(4 : Int)] else []) :=
  (C4_amended
    { priority := 4, oplist := fun j => if 0 ≤ j ∧ j < 2 then some j.toNat else none
      , maxops := 8, curops := 2, first := 0, last := 2, Minimum := 1
      , hasCallback := true } (by decide) (by decide) (by decide)).2.1 (by decide)

/-- Claim C5: whenever `Add` returns any of the three errors, the
scheduler state — the global pending count, every queue's pending
sequence and count — is exactly the state before the call (no partial
enqueue; the whole record is unchanged). -/
theorem C5_add_error_no_partial_enqueue (s : Scheduler) (p : Int) (o : Nat)
    (e : SchedErr) (h : (Add s p o).2 = some e) :
    (Add s p o).1 = s :=
  Add_error_unchanged s p o e h

/-- Witness for C5: a rejected `Add` at global capacity leaves the
scheduler record untouched. -/
theorem C5_add_error_no_partial_enqueue_witness :
    (Add { usingWorkers := false, opqueue := none, pai := false, pdc := 0
           , pl := fun _ => none, opl := [], curops := 2, maxops := 2 } 1 0).1
      = { usingWorkers := false, opqueue := none, pai := false, pdc := 0
          , pl := fun _ => none, opl := [], curops := 2, maxops := 2 } :=
  C5_add_error_no_partial_enqueue
    { usingWorkers := false, opqueue := none, pai := false, pdc := 0
      , pl := fun _ => none, opl := [], curops := 2, maxops := 2 } 1 0
    SchedErr.ErrMaxCapacity (by decide)



/-- Claim C6: `InitPriority` is idempotent with respect to queue
identity.  On an existing priority it only replaces that queue's
capacity: the scan list is unchanged (no second entry for `p`), every
other queue is untouched, the pending units and their order are intact,
and the global counter is unchanged.  On a new priority the queue is
inserted so that the scan list stays strictly ascending, as a
permutation of the old list plus `p` (one entry, no duplicate). -/
theorem C6_initpriority_idempotent (s : Scheduler) (p : Int) (m : Int) :
    (∀ pr, s.pl p = some pr →
      (InitPriority s p m).opl = s.opl ∧
      (InitPriority s p m).pl p = some { pr with maxops := getMaxops m } ∧
      (∀ q, q ≠ p → (InitPriority s p m).pl q = s.pl q) ∧
      pmOps { pr with maxops := getMaxops m } = pmOps pr ∧
      (InitPriority s p m).curops = s.curops) ∧
    (s.pl p = none → List.Pairwise (· < ·) s.opl → p ∉ s.opl →
      List.Pairwise (· < ·) (InitPriority s p m).opl ∧
      (InitPriority s p m).opl.Perm (p :: s.opl) ∧
      (InitPriority s p m).pl p = some (newPriorityMetadata p m) ∧
      (∀ q, q ≠ p → (InitPriority s p m).pl q = s.pl q)) := by
  constructor
  · intro pr hpl
    rw [InitPriority_existing m hpl]
    refine ⟨rfl, by simp, ?_, rfl, rfl⟩
    intro q hq
    simp [hq]
  · intro hpl hpw hnm
    rw [InitPriority_new_eq m hpl]
    refine ⟨?_, ?_, by simp, ?_⟩
    · show List.Pairwise (· < ·) (oplLoop p (s.opl ++ [p]) ((s.opl ++ [p]).length - 1))
      rw [oplLoop_new p s.opl hpw]
      exact pairwise_insert p s.opl hpw hnm
    · show (oplLoop p (s.opl ++ [p]) ((s.opl ++ [p]).length - 1)).Perm (p :: s.opl)
      rw [oplLoop_new p s.opl hpw]
      exact perm_insert p s.opl
    · intro q hq
      simp [hq]

/-- Witness for C6: re-initializing an existing priority `5` updates
only its capacity. -/
theorem C6_initpriority_idempotent_witness :
    (InitPriority
      { usingWorkers := false, opqueue := none, pai := false, pdc := 0
        , pl := fun q => if q = 5 then some (newPriorityMetadata 5 2) else none
        , opl := [5], curops := 0, maxops := 9 } 5 7).opl = [5] ∧
    (InitPriority
      { usingWorkers := false, opqueue := none, pai := false, pdc := 0
        , pl := fun q => if q = 5 then some (newPriorityMetadata 5 2) else none
        , opl := [5], curops := 0, maxops := 9 } 5 7).pl 5
      = some { newPriorityMetadata 5 2 with maxops := getMaxops 7 } ∧
    (∀ q, q ≠ (5 : Int) →
      (InitPriority
        { usingWorkers := false, opqueue := none, pai := false, pdc := 0
          , pl := fun q => if q = 5 then some (newPriorityMetadata 5 2) else none
          , opl := [5], curops := 0, maxops := 9 } 5 7).pl q
        = (if q = 5 then some (newPriorityMetadata 5 2) else none)) ∧
    pmOps { newPriorityMetadata 5 2 with maxops := getMaxops 7 }
      = pmOps (newPriorityMetadata 5 2) ∧
    (InitPriority
      { usingWorkers := false, opqueue := none, pai := false, pdc := 0
        , pl := fun q => if q = 5 then some (newPriorityMetadata 5 2) else none
        , opl := [5], curops := 0, maxops := 9 } 5 7).curops = 0 :=
  (C6_initpriority_idempotent
    { usingWorkers := false, opqueue := none, pai := false, pdc := 0
      , pl := fun q => if q = 5 then some (newPriorityMetadata 5 2) else none
      , opl := [5], curops := 0, maxops := 9 } 5 7).1 (newPriorityMetadata 5 2) rfl

/-- Claim C7: configuring capacity 0 — globally at construction or
per-priority via `InitPriority` — behaves as unbounded admission, never
as an always-full queue: `getMaxops 0` and `Config.maxops` of a
zero-size configuration are the maximum representable count, and an
`Add` against an empty queue configured with capacity 0 is never
rejected for capacity. -/
theorem C7_zero_capacity_unbounded (c : Config) (s : Scheduler) (p : Int) (o : Nat)
    (pm : priorityMetadata) (hc : c.MaxQueueSize = 0)
    (hsm : s.maxops = c.maxops) (hcur : s.curops < 2 ^ 32 - 1)
    (hpl : s.pl p = some pm) (hpmm : pm.maxops = getMaxops 0) (hpc : pm.curops = 0) :
    getMaxops 0 = 2 ^ 32 - 1 ∧ c.maxops = 2 ^ 32 - 1 ∧ (Add s p o).2 = none := by
  have hg0 : getMaxops 0 = 2 ^ 32 - 1 := by decide
  have hcm : c.maxops = 2 ^ 32 - 1 := by
    unfold Config.maxops
    rw [hc]
    simp
  refine ⟨hg0, hcm, ?_⟩
  have hm : ¬ s.maxops ≤ s.curops := by
    rw [hsm, hcm]
    omega
  have hf : pm.curops ≠ pm.maxops := by
    rw [hpc, hpmm, hg0]
    omega
  rw [Add_success_existing p o hm hpl hf]

/-- Witness for C7: a fresh capacity-0 queue under a zero-size global
configuration admits an operation. -/
theorem C7_zero_capacity_unbounded_witness :
    getMaxops 0 = 2 ^ 32 - 1 ∧
    Config.maxops { MaxQueueSize := 0 } = 2 ^ 32 - 1 ∧
    (Add { usingWorkers := false, opqueue := none, pai := false, pdc := 0
           , pl := fun q => if q = 3 then some (newPriorityMetadata 3 0) else none
           , opl := [3], curops := 0, maxops := 2 ^ 32 - 1 } 3 11).2 = none :=
  C7_zero_capacity_unbounded { MaxQueueSize := 0 }
    { usingWorkers := false, opqueue := none, pai := false, pdc := 0
      , pl := fun q => if q = 3 then some (newPriorityMetadata 3 0) else none
      , opl := [3], curops := 0, maxops := 2 ^ 32 - 1 } 3 11
    (newPriorityMetadata 3 0) rfl (by decide) (by decide) rfl rfl rfl

/-- Claim C8: `Add`, `InitPriority` and the `getNextOp` dequeue each
preserve the scheduler invariant, in particular that the global pending
counter equals the sum of the per-priority queue counters and never
exceeds the configured global maximum. -/
theorem C8_operations_preserve_invariant (s : Scheduler) (h : Inv s)
    (p cap : Int) (o : Nat) :
    (s.curops = sumCurops s ∧ s.curops ≤ s.maxops) ∧
    (Inv (Add s p o).1 ∧
      (Add s p o).1.curops = sumCurops (Add s p o).1 ∧
      (Add s p o).1.curops ≤ (Add s p o).1.maxops) ∧
    (Inv (InitPriority s p cap) ∧
      (InitPriority s p cap).curops = sumCurops (InitPriority s p cap) ∧
      (InitPriority s p cap).curops ≤ (InitPriority s p cap).maxops) ∧
    (Inv (getNextOp s).1 ∧
      (getNextOp s).1.curops = sumCurops (getNextOp s).1 ∧
      (getNextOp s).1.curops ≤ (getNextOp s).1.maxops) := by
  have hA := Inv_Add h p o
  have hI := Inv_InitPriority h p cap
  have hG := Inv_getNextOp h
  exact ⟨⟨h.2.2.1, h.2.1⟩, ⟨hA, hA.2.2.1, hA.2.1⟩, ⟨hI, hI.2.2.1, hI.2.1⟩,
    ⟨hG, hG.2.2.1, hG.2.1⟩⟩

/-- Witness for C8: the invariant package applied to a freshly
constructed scheduler. -/
theorem C8_operations_preserve_invariant_witness :
    Inv
      (Add
        (New { MaxQueueSize := 4, PriorityAutoInit := true, PriorityDefaultCapacity := 2 })
        1 0).1 :=
  (C8_operations_preserve_invariant
    (New { MaxQueueSize := 4, PriorityAutoInit := true, PriorityDefaultCapacity := 2 })
    (Inv_New { MaxQueueSize := 4, PriorityAutoInit := true, PriorityDefaultCapacity := 2 })
    1 2 0).2.1.1

/-- Claim C9: the claim asserts that no send on the worker hand-off
channel ever occurs after the channel has been closed.  The code closes
the channel before signalling the tick loop to exit: the interleaving
below — `ticker.Stop()`, `close(opqueue)`, then the loop consuming a
tick already delivered to the ticker channel (whose `execOp` sends the
dequeued unit on `opqueue`) — is a valid execution in which a send
happens after the close, refuting the claim on the code. -/
theorem C9_send_after_close_trace :
    violatingTrace shutdownInit
      [ShutdownLabel.stopStep StopStmt.tickerStop,
       ShutdownLabel.stopStep StopStmt.closeQueue,
       ShutdownLabel.loopTick] = true := by
  decide

/-- Claim C10: a scheduler constructed with a worker count of 0 never
creates the hand-off channel (it stays nil), and `Stop()` on such a
scheduler unconditionally executes `close` on that nil channel, which
faults instead of stopping cleanly. -/
theorem C10_zero_workers_stop_faults (c : Config) (h : c.Workers = 0) :
    (New c).opqueue = none ∧ Stop (New c) = none := by
  have hlt : ¬ (0 : Int) < c.Workers := by omega
  constructor
  · simp [New, hlt]
  · unfold Stop
    simp [New, hlt]

/-- Witness for C10: the default configuration has zero workers, and
`Stop` on the resulting scheduler faults. -/
theorem C10_zero_workers_stop_faults_witness :
    (New {}).opqueue = none ∧ Stop (New {}) = none :=
  C10_zero_workers_stop_faults {} rfl


end GoSched
